import Mathlib

/-!
# path-monochromatic: depth-2 monochromatic reachability in 2-coloured tournaments

A shallow embedding of `path-monochromatic.cpp`.

* The global `tournamentDB[r]` (one `q × q` block of `int`s) is a structure `Mat` wrapping a
  function `Nat → Nat → Int`; an assignment `tournamentDB[r][i][j] = v` is `Mat.set`.
  The sign of an off-diagonal entry is the direction of the edge, its magnitude the colour.
  Entries have magnitude at most `C` and counts are at most `q * q`, far below the range of
  a 32-bit `int` for every `q` the arrays can hold, so `Int` is used without wrap-around.
* The source constants `q`, `C`, `resultFilter` and `directedTrainglesFilter` are parameters.
* A `for (x = lo; x < hi; x++)` loop is `forLoop lo hi body`, a left fold over `lo, …, hi-1`.
* `directedTrianglesDB` is the list of rows written so far, `directedTrianglesCount` its
  counter; both are returned by `directedTrainaglesDBSet` and passed to the functions that
  read these globals.
* The loop nest of `nextColor` has an early `return`; it is a recursion over the pairs
  `(i, j)` in the order of the visit (`edgeOrder`), which stops at the `return`.
* `checkAllColorings` is a `while` loop; it is modelled with fuel and returns `none` only
  when the fuel runs out.
* `main` is its loop over the tournaments, reduced to what it prints for each of them.

The file has three parts: the definitions (the program, then the reference notions the
claims are stated with), the lemmas, and at the end the theorems that settle the claims.
-/

namespace PathMono

/-! ## Data model -/

/-- One block `tournamentDB[r]` of the global array (also used for `reachability`):
`m i j` is the entry `[i][j]`. -/
structure Mat where
  get : Nat → Nat → Int

instance : CoeFun Mat (fun _ => Nat → Nat → Int) := ⟨Mat.get⟩

/-- Assignment `m[i][j] = v`. -/
def Mat.set (m : Mat) (i j : Nat) (v : Int) : Mat :=
  ⟨fun a b => if a = i ∧ b = j then v else m a b⟩

/-- The loop `for (x = lo; x < hi; x++) s = body x s`. -/
def forLoop {σ : Type} (lo hi : Nat) (body : Nat → σ → σ) (s : σ) : σ :=
  (List.range' lo (hi - lo)).foldl (fun s x => body x s) s

/-! ## `nextTournamentFromFile` produces sign matrices; the shape they have -/

/-- A tournament matrix: zero diagonal, antisymmetric, non-zero off the diagonal
(sign = direction, magnitude = colour). -/
def IsTournament (q : Nat) (m : Mat) : Prop :=
  ∀ i < q, ∀ j < q, m i i = 0 ∧ m i j = -m j i ∧ (i ≠ j → m i j ≠ 0)

instance (q : Nat) (m : Mat) : Decidable (IsTournament q m) := by
  unfold IsTournament; infer_instance

/-- A valid colouring with `C` colours: a tournament matrix all of whose off-diagonal
magnitudes lie in `1..C`. -/
def IsColoring (q : Nat) (C : Int) (m : Mat) : Prop :=
  IsTournament q m ∧ ∀ i < q, ∀ j < q, i ≠ j → 1 ≤ |m i j| ∧ |m i j| ≤ C

instance (q : Nat) (C : Int) (m : Mat) : Decidable (IsColoring q C m) := by
  unfold IsColoring; infer_instance

/-- Two matrices agree on the `q × q` block. -/
def MatEqOn (q : Nat) (a b : Mat) : Prop := ∀ i < q, ∀ j < q, a i j = b i j

instance (q : Nat) (a b : Mat) : Decidable (MatEqOn q a b) := by
  unfold MatEqOn; infer_instance

/-- The two matrices describe the same tournament: every entry has the same sign. -/
def SameDirections (q : Nat) (a b : Mat) : Prop :=
  ∀ i < q, ∀ j < q, (0 < a i j ↔ 0 < b i j) ∧ (a i j < 0 ↔ b i j < 0)

instance (q : Nat) (a b : Mat) : Decidable (SameDirections q a b) := by
  unfold SameDirections; infer_instance

/-! ## `nextTournamentFromFile` (source lines 34-48) -/

/-- The call `fgetc(datafile)` on the rest of the stream: the next character and what
remains, `none` (for `EOF`) at the end of the stream. -/
def fgetc (datafile : List Char) : Option Char × List Char :=
  match datafile with
  | [] => (none, [])
  | c :: rest => (some c, rest)

/-- Lines 42-44 for the pair `(i, j)`: read one character, store `-1` if it is `'0'` and `1`
otherwise, and store the opposite value at `(j, i)`.  The state is the matrix and the rest
of the stream. -/
def readPair (i j : Nat) (s : Mat × List Char) : Mat × List Char :=
  let r := fgetc s.2
  let c := r.1
  let m1 := if c = some '0' then s.1.set i j (-1) else s.1.set i j 1
  (m1.set j i (-m1 i j), r.2)

/-- The function `nextTournamentFromFile`, run on the previous contents `m` of
`tournamentDB[r]` and the rest of the stream: the matrix loaded and the stream left after
the last `fgetc` (line 47).  There is no failing path in the source. -/
def nextTournamentFromFile (q : Nat) (m : Mat) (datafile : List Char) : Mat × List Char :=
  let s := forLoop 0 q (fun i s =>
    forLoop (i + 1) q (fun j s => readPair i j s) (s.1.set i i 0, s.2)) (m, datafile)
  (s.1, (fgetc s.2).2)

/-! ## `directedTrainaglesDBSet` (source lines 59-72) -/

/-- The test of source line 64. -/
def triangleTest (m : Mat) (i j k : Nat) : Bool :=
  (decide (m i j > 0) && decide (m j k > 0) && decide (m k i > 0)) ||
  (decide (m i j < 0) && decide (m j k < 0) && decide (m k i < 0))

/-- Body of the innermost loop: on success write row `pos` and increment `pos`.
The state is `(directedTrianglesDB[0..pos), pos)`. -/
def triangleBody (m : Mat) (i j k : Nat)
    (s : List (Nat × Nat × Nat) × Nat) : List (Nat × Nat × Nat) × Nat :=
  if triangleTest m i j k then (s.1 ++ [(i, j, k)], s.2 + 1) else s

/-- The function `directedTrainaglesDBSet`: returns the rows written to `directedTrianglesDB`
and the value `pos` (which is also stored in `directedTrianglesCount` and returned). -/
def directedTrainaglesDBSet (q : Nat) (m : Mat) : List (Nat × Nat × Nat) × Nat :=
  forLoop 0 q (fun i s =>
    forLoop (i + 1) q (fun j s =>
      forLoop (j + 1) q (fun k s => triangleBody m i j k s) s) s) ([], 0)

/-! ## `countDepth2Reachability` (source lines 79-109) -/

/-- First loop nest (lines 80-82): `reachability[i][j] = tournamentDB[r][i][j] > 0 ? 1 : 0`.
It overwrites every entry of the `q × q` block of the global `reachability`, so what an
earlier call left there plays no part; the fold starts from the zero matrix. -/
def initReachability (q : Nat) (m : Mat) : Mat :=
  forLoop 0 q (fun i r =>
    forLoop 0 q (fun j r => r.set i j (if m i j > 0 then 1 else 0)) r) ⟨fun _ _ => 0⟩

/-- Body of the triangle loop (lines 84-102) for the row `(i, j, k)`. -/
def triangleStep (m : Mat) (r : Mat) (t : Nat × Nat × Nat) : Mat :=
  let i := t.1
  let j := t.2.1
  let k := t.2.2
  if m i j > 0 then
    let r := if m i j = m j k then r.set i k 1 else r
    let r := if m j k = m k i then r.set j i 1 else r
    let r := if m k i = m i j then r.set k j 1 else r
    r
  else
    let r := if m j i = m i k then r.set j k 1 else r
    let r := if m i k = m k j then r.set i j 1 else r
    let r := if m k j = m j i then r.set k i 1 else r
    r

/-- Last loop nest (lines 104-107): the sum of all `q * q` entries. -/
def sumReachability (q : Nat) (r : Mat) : Int :=
  forLoop 0 q (fun i c => forLoop 0 q (fun j c => c + r i j) c) 0

/-- The function `countDepth2Reachability`, reading the globals `directedTrianglesDB` (`db`)
and `directedTrianglesCount` (`count`).  A read past the rows written gives `(0, 0, 0)`. -/
def countDepth2Reachability (q : Nat) (m : Mat) (db : List (Nat × Nat × Nat)) (count : Nat) :
    Int :=
  let r0 := initReachability q m
  let r1 := forLoop 0 count (fun pos r => triangleStep m r (db.getD pos (0, 0, 0))) r0
  sumReachability q r1

/-! ## `nextColor` (source lines 115-138) -/

/-- The pairs `(i, j)` visited by `for i < q, for j = i+1 .. q-1`, in the order of the visit. -/
def edgeOrder (q : Nat) : List (Nat × Nat) :=
  forLoop 0 q (fun i es => forLoop (i + 1) q (fun j es => es ++ [(i, j)]) es) []

/-- Lines 122-126: move edge `(i, j)` to the next colour, keeping its direction. -/
def bumpEdge (m : Mat) (i j : Nat) : Mat :=
  let m1 := if m i j > 0 then m.set i j (m i j + 1) else m.set i j (m i j - 1)
  m1.set j i (-m1 i j)

/-- Lines 130-134: put edge `(i, j)` back to colour 1, keeping its direction. -/
def resetEdge (m : Mat) (i j : Nat) : Mat :=
  let m1 := if m i j > 0 then m.set i j 1 else m.set i j (-1)
  m1.set j i (-m1 i j)

/-- The loop nest of `nextColor` run over the remaining pairs `es`; an early `return` ends
it.  Result: the matrix left behind and the returned value. -/
def nextColorLoop (q : Nat) (C : Int) (db : List (Nat × Nat × Nat)) (count : Nat) :
    List (Nat × Nat) → Mat → Mat × Int
  | [], m => (m, 0)
  | (i, j) :: es, m =>
    if i + j = 1 then nextColorLoop q C db count es m
    else
      let currentColor := |m i j|
      if currentColor < C then
        let m2 := bumpEdge m i j
        (m2, countDepth2Reachability q m2 db count)
      else
        nextColorLoop q C db count es (resetEdge m i j)

/-- The function `nextColor`: the new contents of `tournamentDB[r]` and the returned value. -/
def nextColor (q : Nat) (C : Int) (db : List (Nat × Nat × Nat)) (count : Nat) (m : Mat) :
    Mat × Int :=
  nextColorLoop q C db count (edgeOrder q) m

/-- The matrix after `n` successive calls of `nextColor`. -/
def nextColorIter (q : Nat) (C : Int) (db : List (Nat × Nat × Nat)) (count : Nat) :
    Nat → Mat → Mat
  | 0, m => m
  | n + 1, m => nextColorIter q C db count n (nextColor q C db count m).1

/-! ## `checkAllColorings` (source lines 141-155) -/

/-- The `while` loop of `checkAllColorings` with the local `minimum`; `none` when the fuel
is used up.  Result: the matrix left behind and the returned value. -/
def checkAllColoringsLoop (q : Nat) (C : Int) (resultFilter : Int)
    (db : List (Nat × Nat × Nat)) (count : Nat) : Nat → Mat → Int → Option (Mat × Int)
  | 0, _, _ => none
  | fuel + 1, m, minimum =>
    let step := nextColor q C db count m
    let result := step.2
    if result > 0 then
      let minimum := if result < minimum then result else minimum
      if result ≤ resultFilter then some (step.1, result)
      else checkAllColoringsLoop q C resultFilter db count fuel step.1 minimum
    else some (step.1, minimum)

/-- The function `checkAllColorings`. -/
def checkAllColorings (q : Nat) (C : Int) (resultFilter : Int)
    (db : List (Nat × Nat × Nat)) (count : Nat) (fuel : Nat) (m : Mat) : Option (Mat × Int) :=
  checkAllColoringsLoop q C resultFilter db count fuel m 5000

/-! ## `main` (source lines 173-191) -/

/-- The table `numTournaments` of source line 21. -/
def numTournaments : List Nat := [1, 1, 1, 2, 4, 12, 56, 456, 6880, 191536]

/-- What `main` prints for a tournament that passes the triangle filter: the value after
"Minimum reachability count for tournament is", and whether `printTournament` is called. -/
structure Report where
  result : Int
  printed : Bool
  deriving DecidableEq

/-- Body of the loop of `main` (lines 183-189) for the tournament `m = tournamentDB[r]`, the
global `resultFilter` being `2 * q * (q - 1) / 3` (line 24).  The outer `none` means that the
fuel of `checkAllColorings` ran out, `some none` that the tournament did not pass the filter
`directedTrainglesFilter`. -/
def mainBody (q : Nat) (C : Int) (directedTrainglesFilter : Nat) (fuel : Nat) (m : Mat) :
    Option (Option Report) :=
  let t := directedTrainaglesDBSet q m
  if t.2 ≥ directedTrainglesFilter then
    match checkAllColorings q C (2 * q * (q - 1) / 3) t.1 t.2 fuel m with
    | none => none
    | some (_, result) => some (some ⟨result, decide (result > 2 * q * (q - 1) / 3)⟩)
  else some none

/-- The loop of `main` over the tournaments `r, r + 1, …, r + n - 1`. -/
def mainLoop (q : Nat) (C : Int) (directedTrainglesFilter : Nat) (fuel : Nat)
    (tournamentDB : Nat → Mat) : Nat → Nat → Option (List (Option Report))
  | _, 0 => some []
  | r, n + 1 =>
    match mainBody q C directedTrainglesFilter fuel (tournamentDB r) with
    | none => none
    | some x =>
      match mainLoop q C directedTrainglesFilter fuel tournamentDB (r + 1) n with
      | none => none
      | some xs => some (x :: xs)

/-- The loop of `main` (lines 181-190) over all `numTournaments[q]` tournaments; `none` when
the table has no entry for `q` or the fuel runs out. -/
def main (q : Nat) (C : Int) (directedTrainglesFilter : Nat) (fuel : Nat)
    (tournamentDB : Nat → Mat) : Option (List (Option Report)) :=
  match numTournaments[q]? with
  | none => none
  | some n => mainLoop q C directedTrainglesFilter fuel tournamentDB 0 n

/-! ## Reference definitions (from the header comment of the source and the claims) -/

/-- Vertex `u` monochromatically dominates `v ≠ u` by a path of length at most 2: either
`u → v` is an edge, or there is `w` with `u → w` and `w → v` of the same colour. -/
def monoDominates (q : Nat) (m : Mat) (u v : Nat) : Prop :=
  u ≠ v ∧ (0 < m u v ∨ ∃ w < q, 0 < m u w ∧ 0 < m w v ∧ |m u w| = |m w v|)

instance (q : Nat) (m : Mat) (u v : Nat) : Decidable (monoDominates q m u v) := by
  unfold monoDominates; infer_instance

/-- The reference value `s(Q, c)`: the number of ordered pairs `(u, v)` of vertices such that
`u` monochromatically dominates `v`. -/
def refScore (q : Nat) (m : Mat) : Nat :=
  ((Finset.range q ×ˢ Finset.range q).filter (fun p => monoDominates q m p.1 p.2)).card

/-- The value `v` is `s(Q)` for the tournament of `m0`: the minimum of the reference score
over all colourings with `C` colours of that tournament. -/
def IsMinScore (q : Nat) (C : Int) (m0 : Mat) (v : Int) : Prop :=
  (∃ c, IsColoring q C c ∧ SameDirections q m0 c ∧ (refScore q c : Int) = v) ∧
  ∀ c, IsColoring q C c → SameDirections q m0 c → v ≤ (refScore q c : Int)

/-- The edges visited by `nextColor` that it does not skip: by `mem_freeEdges` and
`freeEdges_sorted` these are the edges `(i, j)`, `i < j < q`, other than `(0, 1)`, in
row-major order.  They are the digits `e_0, e_1, …` of a colouring read as a number. -/
def freeEdges (q : Nat) : List (Nat × Nat) :=
  (edgeOrder q).filter fun e => decide (e.1 + e.2 ≠ 1)

/-- The number `N = Σ_t (colour(e_t) - 1) * C ^ t` of a colouring, the edges `e_0, e_1, …`
being given as a list and the colour of an edge being the magnitude of its entry. -/
def colourNumber (C : Nat) (m : Mat) : List (Nat × Nat) → Nat
  | [] => 0
  | e :: es => ((m e.1 e.2).natAbs - 1) + C * colourNumber C m es

/-- Strict lexicographic order on pairs (row-major order). -/
def lexLt2 (a b : Nat × Nat) : Prop := a.1 < b.1 ∨ (a.1 = b.1 ∧ a.2 < b.2)

instance (a b : Nat × Nat) : Decidable (lexLt2 a b) := by
  unfold lexLt2; infer_instance

/-- Strict lexicographic order on triples. -/
def lexLt3 (a b : Nat × Nat × Nat) : Prop :=
  a.1 < b.1 ∨ (a.1 = b.1 ∧ (a.2.1 < b.2.1 ∨ (a.2.1 = b.2.1 ∧ a.2.2 < b.2.2)))

instance (a b : Nat × Nat × Nat) : Decidable (lexLt3 a b) := by
  unfold lexLt3; infer_instance

/-- The vertices `i, j, k` form a directed 3-cycle `i → j → k → i` or `i → k → j → i`. -/
def IsDirectedTriangle (m : Mat) (i j k : Nat) : Prop :=
  (0 < m i j ∧ 0 < m j k ∧ 0 < m k i) ∨ (0 < m i k ∧ 0 < m k j ∧ 0 < m j i)

instance (m : Mat) (i j k : Nat) : Decidable (IsDirectedTriangle m i j k) := by
  unfold IsDirectedTriangle; infer_instance

/-- Colour 1 becomes colour 2 and colour 2 becomes colour 1; the sign is kept. -/
def swapColor (v : Int) : Int :=
  if v = 1 then 2 else if v = 2 then 1 else if v = -1 then -2 else if v = -2 then -1 else v

/-- The matrix with colours 1 and 2 swapped on every edge. -/
def swapColors (m : Mat) : Mat := ⟨fun i j => swapColor (m i j)⟩

/-- The initial colouring of the tournament of `m`, as `nextTournamentFromFile` loads it:
`1` for an edge `i → j`, `-1` for an edge `j → i`. -/
def initialColoring (m : Mat) : Mat :=
  ⟨fun i j => if m i j > 0 then 1 else if m i j < 0 then -1 else 0⟩

/-- The tournament with every edge reversed: every entry negated. -/
def reverseEdges (m : Mat) : Mat := ⟨fun i j => -m i j⟩

/-- The transposed matrix. -/
def transpose (m : Mat) : Mat := ⟨fun i j => m j i⟩

/-! ## Test data -/

/-- The 3-cycle `0 → 1 → 2 → 0`, every edge of colour 1. -/
def cycle3 : Mat := ⟨fun i j =>
  if (i, j) = (0, 1) ∨ (i, j) = (1, 2) ∨ (i, j) = (2, 0) then 1
  else if (i, j) = (1, 0) ∨ (i, j) = (2, 1) ∨ (i, j) = (0, 2) then -1
  else 0⟩

/-- The transitive tournament (`i → j` whenever `i < j`), every edge of colour 1. -/
def transitiveT : Mat := ⟨fun i j => if i < j then 1 else if j < i then -1 else 0⟩

/-- The tournament on 4 vertices with the edges `0 → 1`, `1 → 2`, `1 → 3`, `2 → 3`, `2 → 0`,
`3 → 0` (two directed triangles), every edge of colour 1. -/
def strong4 : Mat := ⟨fun i j =>
  if (i, j) = (0, 1) ∨ (i, j) = (1, 2) ∨ (i, j) = (1, 3) ∨ (i, j) = (2, 3) ∨
     (i, j) = (2, 0) ∨ (i, j) = (3, 0) then 1
  else if (i, j) = (1, 0) ∨ (i, j) = (2, 1) ∨ (i, j) = (3, 1) ∨ (i, j) = (3, 2) ∨
     (i, j) = (0, 2) ∨ (i, j) = (0, 3) then -1
  else 0⟩

/-- The colouring of `strong4` with edge `0 → 1` of colour 1 and every other edge of
colour 2. -/
def strong4Min : Mat := ⟨fun i j =>
  if (i, j) = (0, 1) then 1
  else if (i, j) = (1, 0) then -1
  else if (i, j) = (1, 2) ∨ (i, j) = (1, 3) ∨ (i, j) = (2, 3) ∨ (i, j) = (2, 0) ∨
     (i, j) = (3, 0) then 2
  else if (i, j) = (2, 1) ∨ (i, j) = (3, 1) ∨ (i, j) = (3, 2) ∨ (i, j) = (0, 2) ∨
     (i, j) = (0, 3) then -2
  else 0⟩

/-- The two tournaments on 3 vertices, as a database: the 3-cycle and the transitive one. -/
def tournaments3 : Nat → Mat := fun r => if r = 0 then cycle3 else transitiveT

/-! ## Auxiliary definitions for the proofs -/

/-- The rows written by `directedTrainaglesDBSet`, as a comprehension. -/
def triangleList (q : Nat) (m : Mat) : List (Nat × Nat × Nat) :=
  (List.range' 0 (q - 0)).flatMap fun i =>
    (List.range' (i + 1) (q - (i + 1))).flatMap fun j =>
      (List.range' (j + 1) (q - (j + 1))).flatMap fun k =>
        if triangleTest m i j k then [(i, j, k)] else []

/-- The pair `(a, b)` is an entry set to 1 by `triangleStep` for the row `t`. -/
def hits (m : Mat) (t : Nat × Nat × Nat) (a b : Nat) : Prop :=
  if m t.1 t.2.1 > 0 then
    (m t.1 t.2.1 = m t.2.1 t.2.2 ∧ a = t.1 ∧ b = t.2.2) ∨
    (m t.2.1 t.2.2 = m t.2.2 t.1 ∧ a = t.2.1 ∧ b = t.1) ∨
    (m t.2.2 t.1 = m t.1 t.2.1 ∧ a = t.2.2 ∧ b = t.2.1)
  else
    (m t.2.1 t.1 = m t.1 t.2.2 ∧ a = t.2.1 ∧ b = t.2.2) ∨
    (m t.1 t.2.2 = m t.2.2 t.2.1 ∧ a = t.1 ∧ b = t.2.1) ∨
    (m t.2.2 t.2.1 = m t.2.1 t.1 ∧ a = t.2.2 ∧ b = t.1)

instance (m : Mat) (t : Nat × Nat × Nat) (a b : Nat) : Decidable (hits m t a b) := by
  unfold hits; infer_instance

/-- The matrix `reachability` at the end of the triangle loop. -/
def finalReachability (q : Nat) (m : Mat) (db : List (Nat × Nat × Nat)) : Mat :=
  db.foldl (triangleStep m) (initReachability q m)

/-- The number of positive entries of the `q × q` block. -/
def posSum (q : Nat) (m : Mat) : Int :=
  ∑ i in Finset.range q, ∑ j in Finset.range q, (if 0 < m i j then (1 : Int) else 0)

/-- The rows read by the triangle loop of `countDepth2Reachability`. -/
def rowsRead (db : List (Nat × Nat × Nat)) (count : Nat) : List (Nat × Nat × Nat) :=
  (List.range' 0 count).map fun pos => db.getD pos (0, 0, 0)

/-- Assignment of `v` to the entry `(i, j)` and of `-v` to the entry `(j, i)`. -/
def setPair (m : Mat) (i j : Nat) (v : Int) : Mat := (m.set i j v).set j i (-v)

/-- The edges of `es` that `nextColor` does not skip. -/
def unskipped (es : List (Nat × Nat)) : List (Nat × Nat) :=
  es.filter fun e => decide (e.1 + e.2 ≠ 1)

/-- The value returned by call number `l` of `nextColor` (for `1 ≤ l < C ^ n`): the score of
the matrix after `l` calls. -/
def scoreAt (q : Nat) (C : Int) (db : List (Nat × Nat × Nat)) (count : Nat) (m0 : Mat)
    (l : Nat) : Int :=
  countDepth2Reachability q (nextColorIter q C db count l m0) db count

/-- The matrix with all entries 0. -/
def zeroMat : Mat := ⟨fun _ _ => 0⟩

/-- The loader as the specification describes it, for the pairs `es` still to read: the
marker `'1'` stands for the edge `i → j`, the marker `'0'` for the edge `j → i`, both entries
of the pair are filled, and loading fails (`none`, a format error) when the stream is
exhausted or holds another character at a marker position. -/
def loadPairs : List (Nat × Nat) → Mat → List Char → Option (Mat × List Char)
  | [], m, s => some (m, s)
  | _ :: _, _, [] => none
  | (i, j) :: es, m, c :: s =>
    if c = '1' then loadPairs es (setPair m i j 1) s
    else if c = '0' then loadPairs es (setPair m i j (-1)) s
    else none

/-- The loader of the specification: the pairs `i < j` in row-major order, on a matrix with
zero diagonal. -/
def loadSpec (q : Nat) (stream : List Char) : Option Mat :=
  (loadPairs (edgeOrder q) zeroMat stream).map fun r => r.1

/-- The stream is exhausted before all `q (q - 1) / 2` markers are read, or holds a character
other than the two markers at a marker position. -/
def Malformed (q : Nat) (stream : List Char) : Prop :=
  stream.length < q * (q - 1) / 2 ∨
  ∃ c ∈ stream.take (q * (q - 1) / 2), c ≠ '0' ∧ c ≠ '1'

instance (q : Nat) (stream : List Char) : Decidable (Malformed q stream) := by
  unfold Malformed; infer_instance

/-- The entry stored for a character read: `-1` for `'0'`, and `1` for every other character
and for the end of the stream. -/
def markerValue (c : Option Char) : Int := if c = some '0' then -1 else 1

/-- The stream with every character other than `'0'` replaced by `'1'`, followed by `k`
more characters `'1'`. -/
def readAsOnes (k : Nat) (stream : List Char) : List Char :=
  stream.map (fun c => if c = '0' then '0' else '1') ++ List.replicate k '1'

/-- The pairs of `es` read one after the other by `readPair`. -/
def readPairs (es : List (Nat × Nat)) (s : Mat × List Char) : Mat × List Char :=
  es.foldl (fun s e => readPair e.1 e.2 s) s

/-- The matrix with the diagonal entries `(a, a)`, `a ∈ I`, set to 0. -/
def zeroDiag (I : List Nat) (m : Mat) : Mat :=
  ⟨fun a b => if a = b ∧ a ∈ I then 0 else m a b⟩

/-- The pairs `(i, j)` of row `i`, in the order of the inner loop. -/
def rowPairs (q i : Nat) : List (Nat × Nat) :=
  (List.range' (i + 1) (q - (i + 1))).flatMap fun j => [(i, j)]

/-! ## Loops as list traversals -/

@[simp] theorem Mat.set_apply (m : Mat) (i j : Nat) (v : Int) (a b : Nat) :
    (m.set i j v) a b = if a = i ∧ b = j then v else m a b := rfl

theorem forLoop_eq_foldl {σ : Type} (lo hi : Nat) (body : Nat → σ → σ) (s : σ) :
    forLoop lo hi body s = (List.range' lo (hi - lo)).foldl (fun s x => body x s) s := rfl

/-- A fold that appends `f x` to a list and adds its length to a counter. -/
theorem foldl_collect {α β : Type} (f : α → List β)
    (body : α → List β × Nat → List β × Nat)
    (h : ∀ x s, body x s = (s.1 ++ f x, s.2 + (f x).length)) (l : List α)
    (s : List β × Nat) :
    l.foldl (fun s x => body x s) s = (s.1 ++ l.flatMap f, s.2 + (l.flatMap f).length) := by
  induction l generalizing s with
  | nil => simp
  | cons x xs ih =>
    rw [List.foldl_cons, ih, h]
    simp [Nat.add_assoc]

/-- A fold that appends `f x` to a list. -/
theorem foldl_append_flatMap {α β : Type} (f : α → List β) (body : α → List β → List β)
    (h : ∀ x s, body x s = s ++ f x) (l : List α) (s : List β) :
    l.foldl (fun s x => body x s) s = s ++ l.flatMap f := by
  induction l generalizing s with
  | nil => simp
  | cons x xs ih =>
    rw [List.foldl_cons, ih, h]
    simp

/-! ## The triangle list -/

theorem directedTrainaglesDBSet_eq (q : Nat) (m : Mat) :
    directedTrainaglesDBSet q m = (triangleList q m, (triangleList q m).length) := by
  unfold directedTrainaglesDBSet triangleList
  have hk : ∀ i j k (s : List (Nat × Nat × Nat) × Nat), triangleBody m i j k s =
      (s.1 ++ (if triangleTest m i j k then [(i, j, k)] else []),
        s.2 + (if triangleTest m i j k then [(i, j, k)] else []).length) := by
    intro i j k s
    unfold triangleBody
    split <;> simp
  have hj : ∀ i j (s : List (Nat × Nat × Nat) × Nat),
      forLoop (j + 1) q (fun k s => triangleBody m i j k s) s = _ :=
    fun i j s => foldl_collect _ _ (hk i j) _ s
  have hi : ∀ i (s : List (Nat × Nat × Nat) × Nat),
      forLoop (i + 1) q (fun j s =>
        forLoop (j + 1) q (fun k s => triangleBody m i j k s) s) s = _ :=
    fun i s => foldl_collect _ _ (hj i) _ s
  have h0 := foldl_collect _ _ hi (List.range' 0 (q - 0)) ([], 0)
  rw [forLoop_eq_foldl, h0]
  simp

theorem mem_triangleList (q : Nat) (m : Mat) (i j k : Nat) :
    (i, j, k) ∈ triangleList q m ↔ i < j ∧ j < k ∧ k < q ∧ triangleTest m i j k = true := by
  unfold triangleList
  simp only [List.mem_flatMap, List.mem_range'_1]
  constructor
  · rintro ⟨a, ha, b, hb, c, hc, h⟩
    split at h
    · simp only [List.mem_singleton, Prod.mk.injEq] at h
      obtain ⟨rfl, rfl, rfl⟩ := h
      refine ⟨by omega, by omega, by omega, by assumption⟩
    · simp at h
  · rintro ⟨h1, h2, h3, h4⟩
    exact ⟨i, by omega, j, by omega, k, by omega, by simp [h4]⟩

theorem triangleList_sorted (q : Nat) (m : Mat) : (triangleList q m).Pairwise lexLt3 := by
  unfold triangleList
  rw [List.pairwise_flatMap]
  refine ⟨fun i _ => ?_, ?_⟩
  · rw [List.pairwise_flatMap]
    refine ⟨fun j _ => ?_, ?_⟩
    · rw [List.pairwise_flatMap]
      refine ⟨fun k _ => by split <;> simp, ?_⟩
      refine (List.pairwise_lt_range' _ _).imp ?_
      intro k1 k2 hk x hx y hy
      split at hx <;> split at hy <;> simp at hx hy
      subst hx hy
      simp [lexLt3, hk]
    · refine (List.pairwise_lt_range' _ _).imp ?_
      intro j1 j2 hj x hx y hy
      simp only [List.mem_flatMap] at hx hy
      obtain ⟨k1, _, hx⟩ := hx
      obtain ⟨k2, _, hy⟩ := hy
      split at hx <;> split at hy <;> simp at hx hy
      subst hx hy
      simp [lexLt3, hj]
  · refine (List.pairwise_lt_range' _ _).imp ?_
    intro i1 i2 hi x hx y hy
    simp only [List.mem_flatMap] at hx hy
    obtain ⟨j1, _, k1, _, hx⟩ := hx
    obtain ⟨j2, _, k2, _, hy⟩ := hy
    split at hx <;> split at hy <;> simp at hx hy
    subst hx hy
    simp [lexLt3, hi]

theorem lexLt3_irrefl (a : Nat × Nat × Nat) : ¬ lexLt3 a a := by
  simp [lexLt3]

theorem triangleTest_iff (q : Nat) (m : Mat) (h : IsTournament q m) (i j k : Nat)
    (hi : i < q) (hj : j < q) (hk : k < q) :
    triangleTest m i j k = true ↔ IsDirectedTriangle m i j k := by
  have h1 := (h i hi j hj).2.1
  have h2 := (h j hj k hk).2.1
  have h3 := (h k hk i hi).2.1
  unfold triangleTest IsDirectedTriangle
  simp only [Bool.or_eq_true, Bool.and_eq_true, decide_eq_true_eq, gt_iff_lt]
  constructor
  · rintro (⟨⟨a, b⟩, c⟩ | ⟨⟨a, b⟩, c⟩)
    · exact Or.inl ⟨a, b, c⟩
    · exact Or.inr ⟨by omega, by omega, by omega⟩
  · rintro (⟨a, b, c⟩ | ⟨a, b, c⟩)
    · exact Or.inl ⟨⟨a, b⟩, c⟩
    · exact Or.inr ⟨⟨by omega, by omega⟩, by omega⟩

/-! ## The reachability matrix -/

theorem foldl_set_row (g : Nat → Int) (i : Nat) (l : List Nat) (r : Mat) (a b : Nat) :
    (l.foldl (fun r j => r.set i j (g j)) r) a b = if a = i ∧ b ∈ l then g b else r a b := by
  induction l generalizing r with
  | nil => simp
  | cons x xs ih =>
    rw [List.foldl_cons, ih]
    by_cases h1 : a = i <;> by_cases h2 : b ∈ xs <;> by_cases h3 : b = x <;>
      simp [h1, h2, h3]

theorem foldl_set_block (g : Nat → Nat → Int) (l1 l2 : List Nat) (r : Mat) (a b : Nat) :
    (l1.foldl (fun r i => l2.foldl (fun r j => r.set i j (g i j)) r) r) a b =
      if a ∈ l1 ∧ b ∈ l2 then g a b else r a b := by
  induction l1 generalizing r with
  | nil => simp
  | cons x xs ih =>
    rw [List.foldl_cons, ih, foldl_set_row (g x)]
    by_cases h1 : a ∈ xs <;> by_cases h2 : b ∈ l2 <;> by_cases h3 : a = x <;>
      simp [h1, h2, h3]

theorem initReachability_apply (q : Nat) (m : Mat) (a b : Nat) :
    (initReachability q m) a b = if a < q ∧ b < q then (if m a b > 0 then 1 else 0) else 0 := by
  unfold initReachability forLoop
  rw [foldl_set_block (fun i j => if m i j > 0 then 1 else 0)]
  simp

/-- Reading rows `0 .. count-1` one by one is a traversal of the list of rows. -/
theorem foldl_getD_range {σ α : Type} (step : σ → α → σ) (d : α) (l1 l2 : List α) (s : σ) :
    (List.range' l1.length l2.length).foldl (fun s pos => step s ((l1 ++ l2).getD pos d)) s =
      l2.foldl step s := by
  induction l2 generalizing l1 s with
  | nil => simp
  | cons x xs ih =>
    rw [List.length_cons, List.range'_succ, List.foldl_cons, List.foldl_cons]
    have h1 : (l1 ++ x :: xs).getD l1.length d = x := by
      simp [List.getElem_append_right]
    rw [h1]
    have h2 := ih (l1 ++ [x]) (step s x)
    simp only [List.length_append, List.length_singleton, List.append_assoc,
      List.singleton_append] at h2
    exact h2

theorem set3_apply (r : Mat) (P1 P2 P3 : Prop) [Decidable P1] [Decidable P2] [Decidable P3]
    (i1 j1 i2 j2 i3 j3 a b : Nat) :
    (if P3 then (if P2 then (if P1 then r.set i1 j1 1 else r).set i2 j2 1
        else (if P1 then r.set i1 j1 1 else r)).set i3 j3 1
      else (if P2 then (if P1 then r.set i1 j1 1 else r).set i2 j2 1
        else (if P1 then r.set i1 j1 1 else r))) a b =
    if (P1 ∧ a = i1 ∧ b = j1) ∨ (P2 ∧ a = i2 ∧ b = j2) ∨ (P3 ∧ a = i3 ∧ b = j3) then 1
    else r a b := by
  by_cases h1 : P1 <;> by_cases h2 : P2 <;> by_cases h3 : P3 <;>
    simp only [h1, h2, h3, if_true, if_false, Mat.set_apply, true_and, false_and,
      or_false, false_or] <;>
    split_ifs <;> first | rfl | (exfalso; tauto)

theorem triangleStep_apply (m r : Mat) (t : Nat × Nat × Nat) (a b : Nat) :
    (triangleStep m r t) a b = if hits m t a b then 1 else r a b := by
  unfold triangleStep hits
  by_cases h0 : m t.1 t.2.1 > 0
  · simp only [h0, if_true]
    exact set3_apply r _ _ _ _ _ _ _ _ _ a b
  · simp only [h0, if_false]
    exact set3_apply r _ _ _ _ _ _ _ _ _ a b

theorem foldl_triangleStep_apply (m : Mat) (l : List (Nat × Nat × Nat)) (r : Mat) (a b : Nat) :
    (l.foldl (triangleStep m) r) a b = if ∃ t ∈ l, hits m t a b then 1 else r a b := by
  induction l generalizing r with
  | nil => simp
  | cons x xs ih =>
    rw [List.foldl_cons, ih, triangleStep_apply]
    by_cases h1 : ∃ t ∈ xs, hits m t a b
    · have : ∃ t ∈ x :: xs, hits m t a b := by
        obtain ⟨t, ht, h⟩ := h1
        exact ⟨t, List.mem_cons_of_mem _ ht, h⟩
      simp [h1, this]
    · by_cases h2 : hits m x a b
      · have : ∃ t ∈ x :: xs, hits m t a b := ⟨x, List.mem_cons_self _ _, h2⟩
        simp [h1, h2, this]
      · have : ¬ ∃ t ∈ x :: xs, hits m t a b := by
          rintro ⟨t, ht, h⟩
          rcases List.mem_cons.1 ht with rfl | ht
          · exact h2 h
          · exact h1 ⟨t, ht, h⟩
        simp [h1, h2, this]

theorem countDepth2Reachability_eq (q : Nat) (m : Mat) (db : List (Nat × Nat × Nat)) :
    countDepth2Reachability q m db db.length = sumReachability q (finalReachability q m db) := by
  unfold countDepth2Reachability finalReachability forLoop
  have h := foldl_getD_range (triangleStep m) (0, 0, 0) [] db (initReachability q m)
  simp only [List.length_nil, List.nil_append] at h
  simp only [Nat.sub_zero]
  rw [h]

theorem foldl_add (g : Nat → Int) (l : List Nat) (c : Int) :
    l.foldl (fun c j => c + g j) c = c + (l.map g).sum := by
  induction l generalizing c with
  | nil => simp
  | cons x xs ih =>
    rw [List.foldl_cons, ih]
    simp [add_assoc]

theorem foldl_add2 (g : Nat → Nat → Int) (l1 l2 : List Nat) (c : Int) :
    l1.foldl (fun c i => l2.foldl (fun c j => c + g i j) c) c =
      c + (l1.map (fun i => (l2.map (g i)).sum)).sum := by
  induction l1 generalizing c with
  | nil => simp
  | cons x xs ih =>
    rw [List.foldl_cons, ih, foldl_add]
    simp [add_assoc]

theorem sum_map_range (g : Nat → Int) (n : Nat) :
    ((List.range' 0 n).map g).sum = ∑ i in Finset.range n, g i := by
  rw [← List.range_eq_range']
  induction n with
  | zero => simp
  | succ n ih => simp [List.range_succ, Finset.sum_range_succ, ih]

theorem sumReachability_eq (q : Nat) (r : Mat) :
    sumReachability q r = ∑ i in Finset.range q, ∑ j in Finset.range q, r i j := by
  unfold sumReachability forLoop
  rw [foldl_add2 (fun i j => r i j)]
  simp only [Nat.sub_zero, zero_add, sum_map_range]

/-! ## The triangle loop finds every monochromatic path of length 2 -/

theorem triangleTest_pos (m : Mat) (i j k : Nat) (h1 : 0 < m i j) (h2 : 0 < m j k)
    (h3 : 0 < m k i) : triangleTest m i j k = true := by
  simp [triangleTest, h1, h2, h3]

theorem triangleTest_neg (m : Mat) (i j k : Nat) (h1 : m i j < 0) (h2 : m j k < 0)
    (h3 : m k i < 0) : triangleTest m i j k = true := by
  simp [triangleTest, h1, h2, h3]

theorem triangleTest_cases (m : Mat) (i j k : Nat) (h : triangleTest m i j k = true) :
    (0 < m i j ∧ 0 < m j k ∧ 0 < m k i) ∨ (m i j < 0 ∧ m j k < 0 ∧ m k i < 0) := by
  simp only [triangleTest, Bool.or_eq_true, Bool.and_eq_true, decide_eq_true_eq, gt_iff_lt] at h
  tauto

theorem monoDominates_of_path (q : Nat) (m : Mat) (u w v : Nat) (hw : w < q) (huv : u ≠ v)
    (h1 : 0 < m u w) (h2 : 0 < m w v) (e : m u w = m w v) : monoDominates q m u v :=
  ⟨huv, Or.inr ⟨w, hw, h1, h2, by rw [e]⟩⟩

theorem monoDominates_of_hits (q : Nat) (m : Mat) (h : IsTournament q m) (a b : Nat)
    (t : Nat × Nat × Nat) (ht : t ∈ triangleList q m) (hh : hits m t a b) :
    monoDominates q m a b := by
  obtain ⟨i, j, k⟩ := t
  rw [mem_triangleList] at ht
  obtain ⟨hij, hjk, hkq, htest⟩ := ht
  have hi : i < q := by omega
  have hj : j < q := by omega
  have aij := (h i hi j hj).2.1
  have ajk := (h j hj k hkq).2.1
  have aki := (h k hkq i hi).2.1
  unfold hits at hh
  simp only at hh
  rcases triangleTest_cases m i j k htest with ⟨p1, p2, p3⟩ | ⟨p1, p2, p3⟩
  · rw [if_pos p1] at hh
    rcases hh with ⟨e, rfl, rfl⟩ | ⟨e, rfl, rfl⟩ | ⟨e, rfl, rfl⟩
    · exact monoDominates_of_path q m _ j _ hj (by omega) p1 p2 e
    · exact monoDominates_of_path q m _ k _ hkq (by omega) p2 p3 e
    · exact monoDominates_of_path q m _ i _ hi (by omega) p3 p1 e
  · rw [if_neg (by omega)] at hh
    rcases hh with ⟨e, rfl, rfl⟩ | ⟨e, rfl, rfl⟩ | ⟨e, rfl, rfl⟩
    · exact monoDominates_of_path q m _ i _ hi (by omega) (by omega) (by omega) e
    · exact monoDominates_of_path q m _ k _ hkq (by omega) (by omega) (by omega) e
    · exact monoDominates_of_path q m _ j _ hj (by omega) (by omega) (by omega) e

theorem hits_of_pos (m : Mat) (i j k a b : Nat) (h0 : 0 < m i j)
    (h : (m i j = m j k ∧ a = i ∧ b = k) ∨ (m j k = m k i ∧ a = j ∧ b = i) ∨
      (m k i = m i j ∧ a = k ∧ b = j)) : hits m (i, j, k) a b := by
  show (if m i j > 0 then _ else _)
  rw [if_pos h0]
  exact h

theorem hits_of_neg (m : Mat) (i j k a b : Nat) (h0 : ¬ 0 < m i j)
    (h : (m j i = m i k ∧ a = j ∧ b = k) ∨ (m i k = m k j ∧ a = i ∧ b = j) ∨
      (m k j = m j i ∧ a = k ∧ b = i)) : hits m (i, j, k) a b := by
  show (if m i j > 0 then _ else _)
  rw [if_neg h0]
  exact h

theorem hits_of_path (q : Nat) (m : Mat) (h : IsTournament q m) (a w b : Nat)
    (ha : a < q) (hw : w < q) (hb : b < q) (h1 : 0 < m a w) (h2 : 0 < m w b)
    (h3 : 0 < m b a) (e : m a w = m w b) : ∃ t ∈ triangleList q m, hits m t a b := by
  have aaw := (h a ha w hw).2.1
  have awb := (h w hw b hb).2.1
  have aba := (h b hb a ha).2.1
  have daa := (h a ha a ha).1
  have dbb := (h b hb b hb).1
  have hne1 : a ≠ w := by rintro rfl; omega
  have hne2 : w ≠ b := by rintro rfl; omega
  have hne3 : a ≠ b := by rintro rfl; omega
  rcases Nat.lt_or_gt_of_ne hne1 with l1 | l1 <;> rcases Nat.lt_or_gt_of_ne hne2 with l2 | l2 <;>
    rcases Nat.lt_or_gt_of_ne hne3 with l3 | l3
  · -- a < w < b
    refine ⟨(a, w, b), (mem_triangleList q m a w b).2 ⟨l1, l2, hb, triangleTest_pos m _ _ _ h1 h2 h3⟩, ?_⟩
    refine hits_of_pos m _ _ _ a b h1 ?_
    exact Or.inl ⟨e, rfl, rfl⟩
  · omega
  · -- a < w, b < w, a < b
    refine ⟨(a, b, w), (mem_triangleList q m a b w).2
      ⟨l3, l2, hw, triangleTest_neg m _ _ _ (by omega) (by omega) (by omega)⟩, ?_⟩
    refine hits_of_neg m _ _ _ a b (by omega) ?_
    exact Or.inr (Or.inl ⟨e, rfl, rfl⟩)
  · -- b < a < w
    refine ⟨(b, a, w), (mem_triangleList q m b a w).2
      ⟨l3, l1, hw, triangleTest_pos m _ _ _ h3 h1 h2⟩, ?_⟩
    refine hits_of_pos m _ _ _ a b h3 ?_
    exact Or.inr (Or.inl ⟨e, rfl, rfl⟩)
  · -- w < a < b
    refine ⟨(w, a, b), (mem_triangleList q m w a b).2
      ⟨l1, l3, hb, triangleTest_neg m _ _ _ (by omega) (by omega) (by omega)⟩, ?_⟩
    refine hits_of_neg m _ _ _ a b (by omega) ?_
    exact Or.inl ⟨e, rfl, rfl⟩
  · -- w < b < a
    refine ⟨(w, b, a), (mem_triangleList q m w b a).2
      ⟨l2, l3, ha, triangleTest_pos m _ _ _ h2 h3 h1⟩, ?_⟩
    refine hits_of_pos m _ _ _ a b h2 ?_
    exact Or.inr (Or.inr ⟨e, rfl, rfl⟩)
  · omega
  · -- b < w < a
    refine ⟨(b, w, a), (mem_triangleList q m b w a).2
      ⟨l2, l1, ha, triangleTest_neg m _ _ _ (by omega) (by omega) (by omega)⟩, ?_⟩
    refine hits_of_neg m _ _ _ a b (by omega) ?_
    exact Or.inr (Or.inr ⟨e, rfl, rfl⟩)

theorem finalReachability_apply (q : Nat) (m : Mat) (h : IsTournament q m) (a b : Nat)
    (ha : a < q) (hb : b < q) :
    (finalReachability q m (triangleList q m)) a b =
      if monoDominates q m a b then 1 else 0 := by
  unfold finalReachability
  rw [foldl_triangleStep_apply, initReachability_apply]
  have daa := (h a ha a ha).1
  have aab := (h a ha b hb).2
  by_cases hh : ∃ t ∈ triangleList q m, hits m t a b
  · obtain ⟨t, ht, hh2⟩ := hh
    have := monoDominates_of_hits q m h a b t ht hh2
    rw [if_pos ⟨t, ht, hh2⟩, if_pos this]
  · rw [if_neg hh, if_pos ⟨ha, hb⟩]
    by_cases hd : m a b > 0
    · have : monoDominates q m a b := ⟨by rintro rfl; omega, Or.inl hd⟩
      rw [if_pos hd, if_pos this]
    · have : ¬ monoDominates q m a b := by
        rintro ⟨hne, hd2 | ⟨w, hw, h1, h2, e⟩⟩
        · exact hd hd2
        · apply hh
          have e2 : m a w = m w b := by
            rwa [abs_of_pos h1, abs_of_pos h2] at e
          have := aab.2 hne
          exact hits_of_path q m h a w b ha hw hb h1 h2 (by omega) e2
      rw [if_neg hd, if_neg this]

theorem sum_indicator (q : Nat) (P : Nat → Nat → Prop) [∀ i j, Decidable (P i j)] :
    (∑ i in Finset.range q, ∑ j in Finset.range q, (if P i j then (1 : Int) else 0)) =
      (((Finset.range q ×ˢ Finset.range q).filter (fun p => P p.1 p.2)).card : Int) := by
  rw [Finset.card_filter, Finset.sum_product]
  push_cast
  rfl

theorem countDepth2Reachability_triangleList (q : Nat) (m : Mat) (h : IsTournament q m) :
    countDepth2Reachability q m (triangleList q m) (triangleList q m).length =
      (refScore q m : Int) := by
  rw [countDepth2Reachability_eq, sumReachability_eq]
  unfold refScore
  rw [← sum_indicator]
  refine Finset.sum_congr rfl fun i hi => Finset.sum_congr rfl fun j hj => ?_
  exact finalReachability_apply q m h i j (Finset.mem_range.1 hi) (Finset.mem_range.1 hj)

/-! ## Swapping the two colours -/

theorem Mat.ext_get {a b : Mat} (h : ∀ i j, a i j = b i j) : a = b := by
  cases a; cases b
  congr
  funext i j
  exact h i j

theorem swapColor_pos (v : Int) : 0 < swapColor v ↔ 0 < v := by
  unfold swapColor; split_ifs <;> omega

theorem swapColor_neg (v : Int) : swapColor v < 0 ↔ v < 0 := by
  unfold swapColor; split_ifs <;> omega

theorem swapColor_inj (a b : Int) : swapColor a = swapColor b ↔ a = b := by
  constructor
  · intro h
    unfold swapColor at h
    split_ifs at h <;> omega
  · rintro rfl
    rfl

theorem swapColor_neg_eq (v : Int) : swapColor (-v) = -swapColor v := by
  unfold swapColor; split_ifs <;> omega

theorem swapColor_abs (v : Int) (h1 : 1 ≤ |v|) (h2 : |v| ≤ 2) : |swapColor v| = 3 - |v| := by
  obtain ⟨l, u⟩ := abs_le.1 h2
  have h0 : v ≠ 0 := by
    rintro rfl
    simp at h1
  interval_cases v <;> first | exact absurd rfl h0 | decide

@[simp] theorem swapColors_apply (m : Mat) (i j : Nat) :
    (swapColors m) i j = swapColor (m i j) := rfl

theorem triangleTest_swapColors (m : Mat) (i j k : Nat) :
    triangleTest (swapColors m) i j k = triangleTest m i j k := by
  simp [triangleTest, swapColor_pos, swapColor_neg]

theorem directedTrainaglesDBSet_swapColors (q : Nat) (m : Mat) :
    directedTrainaglesDBSet q (swapColors m) = directedTrainaglesDBSet q m := by
  unfold directedTrainaglesDBSet triangleBody
  simp only [triangleTest_swapColors]

theorem initReachability_swapColors (q : Nat) (m : Mat) :
    initReachability q (swapColors m) = initReachability q m := by
  unfold initReachability
  simp only [swapColors_apply, gt_iff_lt, swapColor_pos]

theorem triangleStep_swapColors (m r : Mat) (t : Nat × Nat × Nat) :
    triangleStep (swapColors m) r t = triangleStep m r t := by
  unfold triangleStep
  simp only [swapColors_apply, gt_iff_lt, swapColor_pos, swapColor_inj]

theorem countDepth2Reachability_swapColors (q : Nat) (m : Mat) (db : List (Nat × Nat × Nat))
    (count : Nat) :
    countDepth2Reachability q (swapColors m) db count = countDepth2Reachability q m db count := by
  unfold countDepth2Reachability
  simp only [initReachability_swapColors, triangleStep_swapColors]

theorem swapColors_isColoring (q : Nat) (m : Mat) (h : IsColoring q 2 m) :
    IsColoring q 2 (swapColors m) := by
  refine ⟨fun i hi j hj => ?_, fun i hi j hj hij => ?_⟩
  · obtain ⟨h1, h2, h3⟩ := h.1 i hi j hj
    simp only [swapColors_apply]
    refine ⟨by rw [h1]; rfl, by rw [h2, swapColor_neg_eq], fun hij => ?_⟩
    have := h3 hij
    have p := swapColor_pos (m i j)
    have n := swapColor_neg (m i j)
    omega
  · have := h.2 i hi j hj hij
    rw [swapColors_apply, swapColor_abs _ this.1 this.2]
    omega

theorem swapColors_sameDirections (q : Nat) (m : Mat) : SameDirections q m (swapColors m) :=
  fun _ _ _ _ => ⟨(swapColor_pos _).symm, (swapColor_neg _).symm⟩

/-! ## Counting the edges -/

theorem IsTournament.mono {q : Nat} {m : Mat} (h : IsTournament (q + 1) m) : IsTournament q m :=
  fun i hi j hj => h i (by omega) j (by omega)

theorem posSum_succ (q : Nat) (m : Mat) (h : IsTournament (q + 1) m) :
    posSum (q + 1) m = posSum q m + q := by
  unfold posSum
  rw [Finset.sum_range_succ]
  simp only [Finset.sum_range_succ]
  rw [Finset.sum_add_distrib]
  have hqq : m q q = 0 := (h q (by omega) q (by omega)).1
  have hpair : ∀ i ∈ Finset.range q,
      (if 0 < m i q then (1 : Int) else 0) + (if 0 < m q i then (1 : Int) else 0) = 1 := by
    intro i hi
    have hi2 := Finset.mem_range.1 hi
    have h1 := (h i (by omega) q (by omega)).2
    have h2 := h1.2 (by omega)
    have h3 := h1.1
    by_cases hp : 0 < m i q
    · rw [if_pos hp, if_neg (by omega)]; rfl
    · rw [if_neg hp, if_pos (by omega)]; rfl
  have hsum : (∑ i in Finset.range q, (if 0 < m i q then (1 : Int) else 0)) +
      (∑ i in Finset.range q, (if 0 < m q i then (1 : Int) else 0)) = q := by
    rw [← Finset.sum_add_distrib, Finset.sum_congr rfl hpair]
    simp
  rw [if_neg (by omega)]
  linarith

theorem two_mul_posSum (q : Nat) (m : Mat) (h : IsTournament q m) :
    2 * posSum q m = (q : Int) * ((q : Int) - 1) := by
  induction q with
  | zero => simp [posSum]
  | succ n ih =>
    rw [posSum_succ n m h]
    have := ih h.mono
    push_cast
    linarith

theorem initReachability_le_final (q : Nat) (m : Mat) (db : List (Nat × Nat × Nat))
    (a b : Nat) (ha : a < q) (hb : b < q) :
    (if 0 < m a b then (1 : Int) else 0) ≤ (finalReachability q m db) a b := by
  unfold finalReachability
  rw [foldl_triangleStep_apply, initReachability_apply]
  simp only [ha, hb, and_self, if_true]
  split_ifs <;> simp_all

theorem countDepth2Reachability_eq_rowsRead (q : Nat) (m : Mat) (db : List (Nat × Nat × Nat))
    (count : Nat) :
    countDepth2Reachability q m db count =
      sumReachability q (finalReachability q m (rowsRead db count)) := by
  unfold countDepth2Reachability finalReachability forLoop rowsRead
  rw [List.foldl_map]
  rfl

theorem posSum_le_countDepth2Reachability (q : Nat) (m : Mat) (db : List (Nat × Nat × Nat))
    (count : Nat) : posSum q m ≤ countDepth2Reachability q m db count := by
  rw [countDepth2Reachability_eq_rowsRead, sumReachability_eq]
  unfold posSum
  refine Finset.sum_le_sum fun i hi => Finset.sum_le_sum fun j hj => ?_
  exact initReachability_le_final q m _ i j (Finset.mem_range.1 hi) (Finset.mem_range.1 hj)

theorem edges_le_countDepth2Reachability (q : Nat) (m : Mat) (h : IsTournament q m)
    (db : List (Nat × Nat × Nat)) (count : Nat) :
    ((q * (q - 1) / 2 : Nat) : Int) ≤ countDepth2Reachability q m db count := by
  have h1 := posSum_le_countDepth2Reachability q m db count
  have h2 := two_mul_posSum q m h
  have h3 : ((q * (q - 1) : Nat) : Int) = (q : Int) * ((q : Int) - 1) := by
    cases q with
    | zero => simp
    | succ n => push_cast; simp
  have h4 : (2 : Int) * ((q * (q - 1) / 2 : Nat) : Int) ≤ ((q * (q - 1) : Nat) : Int) := by
    have := Nat.mul_div_le (q * (q - 1)) 2
    exact_mod_cast this
  linarith

theorem vertices_le_edges (q : Nat) (hq : 3 ≤ q) : q ≤ q * (q - 1) / 2 := by
  have h1 : q * 2 ≤ q * (q - 1) := Nat.mul_le_mul_left q (by omega)
  omega

/-! ## The order in which `nextColor` visits the edges -/

theorem edgeOrder_eq (q : Nat) :
    edgeOrder q = (List.range' 0 (q - 0)).flatMap fun i =>
      (List.range' (i + 1) (q - (i + 1))).flatMap fun j => [(i, j)] := by
  unfold edgeOrder
  have hj : ∀ i (s : List (Nat × Nat)),
      forLoop (i + 1) q (fun j es => es ++ [(i, j)]) s = _ :=
    fun i s => foldl_append_flatMap (fun j => [(i, j)]) _ (fun _ _ => rfl) _ s
  have h0 := foldl_append_flatMap _ _ hj (List.range' 0 (q - 0)) []
  rw [forLoop_eq_foldl, h0]
  simp

theorem mem_edgeOrder (q : Nat) (i j : Nat) : (i, j) ∈ edgeOrder q ↔ i < j ∧ j < q := by
  rw [edgeOrder_eq]
  simp only [List.mem_flatMap, List.mem_range'_1, List.mem_singleton, Prod.mk.injEq]
  constructor
  · rintro ⟨a, ha, b, hb, rfl, rfl⟩
    omega
  · rintro ⟨h1, h2⟩
    exact ⟨i, by omega, j, by omega, rfl, rfl⟩

theorem edgeOrder_sorted (q : Nat) : (edgeOrder q).Pairwise lexLt2 := by
  rw [edgeOrder_eq, List.pairwise_flatMap]
  refine ⟨fun i _ => ?_, ?_⟩
  · rw [List.pairwise_flatMap]
    refine ⟨fun j _ => by simp, ?_⟩
    refine (List.pairwise_lt_range' _ _).imp ?_
    intro j1 j2 hj x hx y hy
    simp only [List.mem_singleton] at hx hy
    subst hx hy
    exact Or.inr ⟨rfl, hj⟩
  · refine (List.pairwise_lt_range' _ _).imp ?_
    intro i1 i2 hi x hx y hy
    simp only [List.mem_flatMap, List.mem_singleton] at hx hy
    obtain ⟨j1, _, rfl⟩ := hx
    obtain ⟨j2, _, rfl⟩ := hy
    exact Or.inl hi

theorem edgeOrder_nodup (q : Nat) : (edgeOrder q).Nodup := by
  refine (edgeOrder_sorted q).imp ?_
  intro a b h e
  subst e
  simp [lexLt2] at h

theorem mem_freeEdges (q : Nat) (i j : Nat) :
    (i, j) ∈ freeEdges q ↔ i < j ∧ j < q ∧ (i, j) ≠ (0, 1) := by
  unfold freeEdges
  rw [List.mem_filter, mem_edgeOrder]
  simp only [decide_eq_true_eq, ne_eq, Prod.mk.injEq]
  constructor
  · rintro ⟨⟨h1, h2⟩, h3⟩
    exact ⟨h1, h2, by omega⟩
  · rintro ⟨h1, h2, h3⟩
    exact ⟨⟨h1, h2⟩, by omega⟩

theorem freeEdges_sorted (q : Nat) : (freeEdges q).Pairwise lexLt2 :=
  (edgeOrder_sorted q).filter _

/-! ## The effect of `bumpEdge` and `resetEdge` -/

theorem bumpEdge_eq (m : Mat) (i j : Nat) :
    bumpEdge m i j = setPair m i j (if m i j > 0 then m i j + 1 else m i j - 1) := by
  unfold bumpEdge setPair
  split <;> simp

theorem resetEdge_eq (m : Mat) (i j : Nat) :
    resetEdge m i j = setPair m i j (if m i j > 0 then 1 else -1) := by
  unfold resetEdge setPair
  split <;> simp

theorem setPair_apply (m : Mat) (i j : Nat) (v : Int) (a b : Nat) :
    (setPair m i j v) a b =
      if a = j ∧ b = i then -v else if a = i ∧ b = j then v else m a b := rfl

theorem setPair_same (m : Mat) (i j : Nat) (v : Int) (hij : i ≠ j) :
    (setPair m i j v) i j = v := by
  rw [setPair_apply, if_neg (by omega), if_pos ⟨rfl, rfl⟩]

theorem setPair_other (m : Mat) (i j : Nat) (v : Int) (a b : Nat)
    (h1 : (a, b) ≠ (i, j)) (h2 : (b, a) ≠ (i, j)) : (setPair m i j v) a b = m a b := by
  simp only [ne_eq, Prod.mk.injEq] at h1 h2
  rw [setPair_apply, if_neg (by tauto), if_neg h1]

theorem setPair_isColoring (q : Nat) (C : Int) (m : Mat) (h : IsColoring q C m) (i j : Nat)
    (hij : i ≠ j) (v : Int) (h1 : 1 ≤ |v|) (h2 : |v| ≤ C) :
    IsColoring q C (setPair m i j v) := by
  have hv0 : v ≠ 0 := by
    rintro rfl
    simp at h1
  refine ⟨fun a ha b hb => ⟨?_, ?_, ?_⟩, fun a ha b hb hab => ?_⟩
  · rw [setPair_apply, if_neg (by omega), if_neg (by omega)]
    exact (h.1 a ha a ha).1
  · have := (h.1 a ha b hb).2.1
    simp only [setPair_apply]
    by_cases e1 : a = j ∧ b = i <;> by_cases e2 : a = i ∧ b = j
    · omega
    · rw [if_pos e1, if_neg (by omega), if_pos ⟨e1.2, e1.1⟩]
    · rw [if_neg e1, if_pos e2, if_pos ⟨e2.2, e2.1⟩]; omega
    · rw [if_neg e1, if_neg e2, if_neg (by tauto), if_neg (by tauto)]; exact this
  · intro hab
    have := (h.1 a ha b hb).2.2 hab
    simp only [setPair_apply]
    split_ifs <;> omega
  · have := h.2 a ha b hb hab
    simp only [setPair_apply]
    split_ifs
    · rw [abs_neg]; exact ⟨h1, h2⟩
    · exact ⟨h1, h2⟩
    · exact this

theorem setPair_sameDirections (q : Nat) (m : Mat) (h : IsTournament q m) (i j : Nat)
    (hi : i < q) (hj : j < q) (v : Int) (h1 : 0 < v ↔ 0 < m i j) (h2 : v < 0 ↔ m i j < 0) :
    SameDirections q m (setPair m i j v) := by
  intro a ha b hb
  have := (h i hi j hj).2.1
  simp only [setPair_apply]
  split_ifs with e1 e2
  · obtain ⟨rfl, rfl⟩ := e1
    constructor <;> omega
  · obtain ⟨rfl, rfl⟩ := e2
    constructor <;> omega
  · exact ⟨Iff.rfl, Iff.rfl⟩

theorem SameDirections.refl (q : Nat) (m : Mat) : SameDirections q m m :=
  fun _ _ _ _ => ⟨Iff.rfl, Iff.rfl⟩

theorem SameDirections.trans {q : Nat} {a b c : Mat} (h1 : SameDirections q a b)
    (h2 : SameDirections q b c) : SameDirections q a c :=
  fun i hi j hj => ⟨(h1 i hi j hj).1.trans (h2 i hi j hj).1,
    (h1 i hi j hj).2.trans (h2 i hi j hj).2⟩

theorem SameDirections.symm {q : Nat} {a b : Mat} (h1 : SameDirections q a b) :
    SameDirections q b a :=
  fun i hi j hj => ⟨(h1 i hi j hj).1.symm, (h1 i hi j hj).2.symm⟩

/-! ## One call of `nextColor` -/

theorem IsColoring.natAbs_bounds {q C : Nat} {m : Mat} (h : IsColoring q C m) (i j : Nat)
    (hi : i < q) (hj : j < q) (hij : i ≠ j) :
    1 ≤ (m i j).natAbs ∧ (m i j).natAbs ≤ C := by
  have := h.2 i hi j hj hij
  rw [Int.abs_eq_natAbs] at this
  omega

theorem colourNumber_congr (C : Nat) (m m2 : Mat) (es : List (Nat × Nat))
    (h : ∀ e ∈ es, m2 e.1 e.2 = m e.1 e.2) : colourNumber C m2 es = colourNumber C m es := by
  induction es with
  | nil => rfl
  | cons e es ih =>
    simp only [colourNumber]
    rw [h e (List.mem_cons_self _ _), ih fun e he => h e (List.mem_cons_of_mem _ he)]

theorem unskipped_skip (i j : Nat) (es : List (Nat × Nat)) (h : i + j = 1) :
    unskipped ((i, j) :: es) = unskipped es := by
  simp [unskipped, List.filter_cons, h]

theorem unskipped_keep (i j : Nat) (es : List (Nat × Nat)) (h : i + j ≠ 1) :
    unskipped ((i, j) :: es) = (i, j) :: unskipped es := by
  simp [unskipped, List.filter_cons, h]

theorem mem_unskipped_of (e : Nat × Nat) (es : List (Nat × Nat)) (h : e ∈ unskipped es) :
    e ∈ es := (List.mem_filter.1 h).1

theorem nextColorLoop_skip (q : Nat) (C : Int) (db : List (Nat × Nat × Nat)) (count : Nat)
    (i j : Nat) (es : List (Nat × Nat)) (m : Mat) (h : i + j = 1) :
    nextColorLoop q C db count ((i, j) :: es) m = nextColorLoop q C db count es m := by
  rw [nextColorLoop, if_pos h]

theorem nextColorLoop_bump (q : Nat) (C : Int) (db : List (Nat × Nat × Nat)) (count : Nat)
    (i j : Nat) (es : List (Nat × Nat)) (m : Mat) (h : i + j ≠ 1) (hc : |m i j| < C) :
    nextColorLoop q C db count ((i, j) :: es) m =
      (bumpEdge m i j, countDepth2Reachability q (bumpEdge m i j) db count) := by
  rw [nextColorLoop, if_neg h]
  simp only [hc, if_true]

theorem nextColorLoop_reset (q : Nat) (C : Int) (db : List (Nat × Nat × Nat)) (count : Nat)
    (i j : Nat) (es : List (Nat × Nat)) (m : Mat) (h : i + j ≠ 1) (hc : ¬ |m i j| < C) :
    nextColorLoop q C db count ((i, j) :: es) m =
      nextColorLoop q C db count es (resetEdge m i j) := by
  rw [nextColorLoop, if_neg h]
  simp only [hc, if_false]

theorem nextColorLoop_spec (q C : Nat) (db : List (Nat × Nat × Nat)) (count : Nat)
    (es : List (Nat × Nat)) (hes : ∀ e ∈ es, e.1 < e.2 ∧ e.2 < q) (hnd : es.Nodup)
    (m : Mat) (hm : IsColoring q C m) :
    IsColoring q C (nextColorLoop q C db count es m).1 ∧
    SameDirections q m (nextColorLoop q C db count es m).1 ∧
    (∀ a b, (a, b) ∉ unskipped es → (b, a) ∉ unskipped es →
      (nextColorLoop q C db count es m).1 a b = m a b) ∧
    ((∀ e ∈ unskipped es, (m e.1 e.2).natAbs = C) →
      (nextColorLoop q C db count es m).2 = 0 ∧
      ∀ e ∈ unskipped es, ((nextColorLoop q C db count es m).1 e.1 e.2).natAbs = 1) ∧
    (¬ (∀ e ∈ unskipped es, (m e.1 e.2).natAbs = C) →
      (nextColorLoop q C db count es m).2 =
        countDepth2Reachability q (nextColorLoop q C db count es m).1 db count ∧
      colourNumber C (nextColorLoop q C db count es m).1 (unskipped es) =
        colourNumber C m (unskipped es) + 1) := by
  induction es generalizing m with
  | nil =>
    refine ⟨hm, SameDirections.refl q m, fun _ _ _ _ => rfl, fun _ => ⟨rfl, ?_⟩, ?_⟩
    · intro e he
      simp [unskipped] at he
    · intro h
      exact absurd (fun e he => by simp [unskipped] at he) h
  | cons e es ih =>
    obtain ⟨i, j⟩ := e
    have hij := hes (i, j) (List.mem_cons_self _ _)
    simp only at hij
    have hes2 : ∀ e ∈ es, e.1 < e.2 ∧ e.2 < q := fun e he => hes e (List.mem_cons_of_mem _ he)
    have hnd2 := (List.nodup_cons.1 hnd).2
    have hnot : (i, j) ∉ es := (List.nodup_cons.1 hnd).1
    have hnot1 : (i, j) ∉ unskipped es := fun h => hnot (mem_unskipped_of _ _ h)
    have hnot2 : (j, i) ∉ unskipped es := fun h => by
      have := hes2 _ (mem_unskipped_of _ _ h)
      simp only at this
      omega
    by_cases hs : i + j = 1
    · rw [nextColorLoop_skip _ _ _ _ _ _ _ _ hs, unskipped_skip _ _ _ hs]
      exact ih hes2 hnd2 m hm
    · rw [unskipped_keep _ _ _ hs]
      have hb := hm.natAbs_bounds i j (by omega) hij.2 (by omega)
      have hT := hm.1
      by_cases hc : |m i j| < (C : Int)
      · -- the edge moves to its next colour and the function returns
        rw [nextColorLoop_bump _ _ _ _ _ _ _ _ hs hc, bumpEdge_eq]
        rw [Int.abs_eq_natAbs] at hc
        have hv1 : (if m i j > 0 then m i j + 1 else m i j - 1).natAbs = (m i j).natAbs + 1 := by
          split <;> omega
        refine ⟨?_, ?_, ?_, ?_, ?_⟩
        · refine setPair_isColoring q C m hm i j (by omega) _ ?_ ?_
          · rw [Int.abs_eq_natAbs]; omega
          · rw [Int.abs_eq_natAbs]; omega
        · refine setPair_sameDirections q m hT i j (by omega) hij.2 _ ?_ ?_ <;>
            split <;> omega
        · intro a b h1 h2
          exact setPair_other m i j _ a b (fun e => h1 (e ▸ List.mem_cons_self _ _))
            (fun e => h2 (e ▸ List.mem_cons_self _ _))
        · intro hall
          have := hall (i, j) (List.mem_cons_self _ _)
          simp only at this
          omega
        · intro _
          refine ⟨rfl, ?_⟩
          simp only [colourNumber]
          rw [setPair_same m i j _ (by omega), hv1]
          rw [colourNumber_congr C m _ (unskipped es) fun e he =>
            setPair_other m i j _ e.1 e.2 (fun h => hnot1 (h ▸ he)) (fun h => by
              have := hes2 _ (mem_unskipped_of _ _ he)
              simp only [Prod.mk.injEq] at h
              omega)]
          omega
      · -- the edge goes back to colour 1 and the loop carries on
        rw [nextColorLoop_reset _ _ _ _ _ _ _ _ hs hc, resetEdge_eq]
        rw [Int.abs_eq_natAbs] at hc
        have hC : (m i j).natAbs = C := by omega
        have hv1 : (if m i j > 0 then (1 : Int) else -1).natAbs = 1 := by
          split <;> rfl
        have hm1 : IsColoring q C (setPair m i j (if m i j > 0 then 1 else -1)) := by
          refine setPair_isColoring q C m hm i j (by omega) _ ?_ ?_
          · rw [Int.abs_eq_natAbs]; omega
          · rw [Int.abs_eq_natAbs]; omega
        have hd1 : SameDirections q m (setPair m i j (if m i j > 0 then 1 else -1)) := by
          refine setPair_sameDirections q m hT i j (by omega) hij.2 _ ?_ ?_ <;>
            split <;> omega
        have hfr : ∀ e ∈ unskipped es,
            (setPair m i j (if m i j > 0 then 1 else -1)) e.1 e.2 = m e.1 e.2 := fun e he =>
          setPair_other m i j _ e.1 e.2 (fun h => hnot1 (h ▸ he)) (fun h => by
            have := hes2 _ (mem_unskipped_of _ _ he)
            simp only [Prod.mk.injEq] at h
            omega)
        obtain ⟨k1, k2, k3, k4, k5⟩ := ih hes2 hnd2 _ hm1
        have hkeep : (nextColorLoop q C db count es
            (setPair m i j (if m i j > 0 then 1 else -1))).1 i j =
            (if m i j > 0 then 1 else -1) := by
          rw [k3 i j hnot1 hnot2, setPair_same m i j _ (by omega)]
        refine ⟨k1, hd1.trans k2, ?_, ?_, ?_⟩
        · intro a b h1 h2
          rw [k3 a b (fun h => h1 (List.mem_cons_of_mem _ h))
            (fun h => h2 (List.mem_cons_of_mem _ h))]
          exact setPair_other m i j _ a b (fun e => h1 (e ▸ List.mem_cons_self _ _))
            (fun e => h2 (e ▸ List.mem_cons_self _ _))
        · intro hall
          have hall2 : ∀ e ∈ unskipped es,
              ((setPair m i j (if m i j > 0 then 1 else -1)) e.1 e.2).natAbs = C := fun e he => by
            rw [hfr e he]
            exact hall e (List.mem_cons_of_mem _ he)
          obtain ⟨r1, r2⟩ := k4 hall2
          refine ⟨r1, fun e he => ?_⟩
          rcases List.mem_cons.1 he with rfl | he
          · simp only
            rw [hkeep, hv1]
          · exact r2 e he
        · intro hnall
          have hnall2 : ¬ ∀ e ∈ unskipped es,
              ((setPair m i j (if m i j > 0 then 1 else -1)) e.1 e.2).natAbs = C := by
            intro hall
            apply hnall
            intro e he
            rcases List.mem_cons.1 he with rfl | he
            · exact hC
            · rw [← hfr e he]
              exact hall e he
          obtain ⟨r1, r2⟩ := k5 hnall2
          refine ⟨r1, ?_⟩
          simp only [colourNumber]
          rw [hkeep, hv1, r2, colourNumber_congr C m _ (unskipped es) hfr, hC]
          have : 1 ≤ C := by omega
          have : C * (colourNumber C m (unskipped es) + 1) =
              C * colourNumber C m (unskipped es) + C := by ring
          omega

/-! ## The colouring read as a number -/

theorem colourNumber_lt (C : Nat) (m : Mat) (es : List (Nat × Nat))
    (h : ∀ e ∈ es, 1 ≤ (m e.1 e.2).natAbs ∧ (m e.1 e.2).natAbs ≤ C) :
    colourNumber C m es < C ^ es.length := by
  induction es with
  | nil => simp [colourNumber]
  | cons e es ih =>
    have h1 := h e (List.mem_cons_self _ _)
    have h2 := ih fun e he => h e (List.mem_cons_of_mem _ he)
    simp only [colourNumber, List.length_cons, pow_succ]
    have h3 : C * (colourNumber C m es + 1) ≤ C * C ^ es.length := Nat.mul_le_mul_left C h2
    have h4 : C * (colourNumber C m es + 1) = C * colourNumber C m es + C := by ring
    have h5 : C ^ es.length * C = C * C ^ es.length := by ring
    omega

theorem colourNumber_all_max (C : Nat) (m : Mat) (es : List (Nat × Nat))
    (h : ∀ e ∈ es, (m e.1 e.2).natAbs = C) (hC : 1 ≤ C) :
    colourNumber C m es + 1 = C ^ es.length := by
  induction es with
  | nil => simp [colourNumber]
  | cons e es ih =>
    have h1 := h e (List.mem_cons_self _ _)
    have h2 := ih fun e he => h e (List.mem_cons_of_mem _ he)
    simp only [colourNumber, List.length_cons, pow_succ]
    rw [← h2, h1]
    have h4 : (colourNumber C m es + 1) * C = C * colourNumber C m es + C := by ring
    omega

theorem colourNumber_all_one (C : Nat) (m : Mat) (es : List (Nat × Nat))
    (h : ∀ e ∈ es, (m e.1 e.2).natAbs = 1) : colourNumber C m es = 0 := by
  induction es with
  | nil => rfl
  | cons e es ih =>
    simp only [colourNumber]
    rw [h e (List.mem_cons_self _ _), ih fun e he => h e (List.mem_cons_of_mem _ he)]
    simp

theorem colourNumber_inj (C : Nat) (a b : Mat) (es : List (Nat × Nat))
    (ha : ∀ e ∈ es, 1 ≤ (a e.1 e.2).natAbs ∧ (a e.1 e.2).natAbs ≤ C)
    (hb : ∀ e ∈ es, 1 ≤ (b e.1 e.2).natAbs ∧ (b e.1 e.2).natAbs ≤ C)
    (h : colourNumber C a es = colourNumber C b es) :
    ∀ e ∈ es, (a e.1 e.2).natAbs = (b e.1 e.2).natAbs := by
  induction es with
  | nil => simp
  | cons e es ih =>
    have a1 := ha e (List.mem_cons_self _ _)
    have b1 := hb e (List.mem_cons_self _ _)
    simp only [colourNumber] at h
    have hmod : ((a e.1 e.2).natAbs - 1 + C * colourNumber C a es) % C =
        ((b e.1 e.2).natAbs - 1 + C * colourNumber C b es) % C := by rw [h]
    rw [Nat.add_mul_mod_self_left, Nat.add_mul_mod_self_left,
      Nat.mod_eq_of_lt (by omega), Nat.mod_eq_of_lt (by omega)] at hmod
    have hhead : (a e.1 e.2).natAbs = (b e.1 e.2).natAbs := by omega
    have htail : colourNumber C a es = colourNumber C b es := by
      have h6 : C * colourNumber C a es = C * colourNumber C b es := by omega
      exact Nat.eq_of_mul_eq_mul_left (by omega) h6
    intro e2 he2
    rcases List.mem_cons.1 he2 with rfl | he2
    · exact hhead
    · exact ih (fun e he => ha e (List.mem_cons_of_mem _ he))
        (fun e he => hb e (List.mem_cons_of_mem _ he)) htail e2 he2

/-! ## The number of edges -/

theorem sum_map_range_nat (g : Nat → Nat) (n : Nat) :
    ((List.range' 0 n).map g).sum = ∑ i in Finset.range n, g i := by
  rw [← List.range_eq_range']
  induction n with
  | zero => simp
  | succ n ih => simp [List.range_succ, Finset.sum_range_succ, ih]

theorem length_edgeOrder (q : Nat) : (edgeOrder q).length = q * (q - 1) / 2 := by
  rw [edgeOrder_eq, List.length_flatMap]
  have h1 : (List.length ∘ fun i =>
      (List.range' (i + 1) (q - (i + 1))).flatMap fun j => [(i, j)]) =
      fun i => q - 1 - i := by
    funext i
    simp only [Function.comp, ← List.map_eq_flatMap, List.length_map, List.length_range']
    omega
  rw [h1, Nat.sub_zero, sum_map_range_nat, Finset.sum_range_reflect (fun i => i) q,
    Finset.sum_range_id]

theorem length_freeEdges (q : Nat) (hq : 2 ≤ q) :
    (freeEdges q).length = q * (q - 1) / 2 - 1 := by
  have h1 : freeEdges q = (edgeOrder q).erase (0, 1) := by
    rw [(edgeOrder_nodup q).erase_eq_filter]
    unfold freeEdges
    apply List.filter_congr
    rintro ⟨i, j⟩ he
    have := (mem_edgeOrder q i j).1 he
    have h2 : (i + j = 1) ↔ ((i, j) = (0, 1)) := by
      simp only [Prod.mk.injEq]
      omega
    by_cases h3 : (i, j) = (0, 1)
    · have h4 := h2.2 h3
      simp [h3, h4]
    · have h4 : ¬ i + j = 1 := fun h => h3 (h2.1 h)
      simp [h3, h4]
  rw [h1, List.length_erase_of_mem ((mem_edgeOrder q 0 1).2 ⟨by omega, by omega⟩),
    length_edgeOrder]

/-! ## `nextColor` as a whole -/

theorem freeEdges_lt (q : Nat) (e : Nat × Nat) (he : e ∈ freeEdges q) :
    e.1 < e.2 ∧ e.2 < q ∧ e ≠ (0, 1) := by
  obtain ⟨i, j⟩ := e
  exact (mem_freeEdges q i j).1 he

theorem IsColoring.on_freeEdges {q C : Nat} {m : Mat} (h : IsColoring q C m) :
    ∀ e ∈ freeEdges q, 1 ≤ (m e.1 e.2).natAbs ∧ (m e.1 e.2).natAbs ≤ C := by
  intro e he
  have := freeEdges_lt q e he
  exact h.natAbs_bounds e.1 e.2 (by omega) this.2.1 (by omega)

theorem nextColor_spec (q C : Nat) (db : List (Nat × Nat × Nat)) (count : Nat)
    (m : Mat) (hm : IsColoring q C m) :
    IsColoring q C (nextColor q C db count m).1 ∧
    SameDirections q m (nextColor q C db count m).1 ∧
    (∀ a b, (a, b) ∉ freeEdges q → (b, a) ∉ freeEdges q →
      (nextColor q C db count m).1 a b = m a b) ∧
    ((∀ e ∈ freeEdges q, (m e.1 e.2).natAbs = C) →
      (nextColor q C db count m).2 = 0 ∧
      ∀ e ∈ freeEdges q, ((nextColor q C db count m).1 e.1 e.2).natAbs = 1) ∧
    (¬ (∀ e ∈ freeEdges q, (m e.1 e.2).natAbs = C) →
      (nextColor q C db count m).2 =
        countDepth2Reachability q (nextColor q C db count m).1 db count ∧
      colourNumber C (nextColor q C db count m).1 (freeEdges q) =
        colourNumber C m (freeEdges q) + 1) :=
  nextColorLoop_spec q C db count (edgeOrder q)
    (fun e he => (mem_edgeOrder q e.1 e.2).1 he) (edgeOrder_nodup q) m hm

theorem nextColor_fixed (q C : Nat) (db : List (Nat × Nat × Nat)) (count : Nat)
    (m : Mat) (hm : IsColoring q C m) :
    (nextColor q C db count m).1 0 1 = m 0 1 ∧ (nextColor q C db count m).1 1 0 = m 1 0 := by
  have h := (nextColor_spec q C db count m hm).2.2.1
  have h1 : ((0, 1) : Nat × Nat) ∉ freeEdges q := fun h => by
    have := (mem_freeEdges q 0 1).1 h
    simp at this
  have h2 : ((1, 0) : Nat × Nat) ∉ freeEdges q := fun h => by
    have := (mem_freeEdges q 1 0).1 h
    simp at this
  exact ⟨h 0 1 h1 h2, h 1 0 h2 h1⟩

theorem score_pos (q : Nat) (m : Mat) (h : IsTournament q m) (hq : 2 ≤ q)
    (db : List (Nat × Nat × Nat)) (count : Nat) : 0 < countDepth2Reachability q m db count := by
  have h1 := edges_le_countDepth2Reachability q m h db count
  have h2 : 1 ≤ q * (q - 1) / 2 := by
    have : 2 * 1 ≤ q * (q - 1) := Nat.mul_le_mul hq (by omega)
    omega
  have h3 : (1 : Int) ≤ ((q * (q - 1) / 2 : Nat) : Int) := by exact_mod_cast h2
  omega

theorem nextColor_number (q C : Nat) (db : List (Nat × Nat × Nat)) (count : Nat)
    (m : Mat) (hm : IsColoring q C m) :
    colourNumber C (nextColor q C db count m).1 (freeEdges q) =
      (colourNumber C m (freeEdges q) + 1) % C ^ (freeEdges q).length := by
  obtain ⟨k1, _, _, k4, k5⟩ := nextColor_spec q C db count m hm
  by_cases hall : ∀ e ∈ freeEdges q, (m e.1 e.2).natAbs = C
  · by_cases hC : 1 ≤ C
    · rw [colourNumber_all_one C _ _ (k4 hall).2, colourNumber_all_max C m _ hall hC,
        Nat.mod_self]
    · -- no colour at all: there is no edge to colour
      have hC0 : C = 0 := by omega
      have hnil : freeEdges q = [] := by
        rcases List.eq_nil_or_concat (freeEdges q) with h | ⟨l, e, h⟩
        · exact h
        · have he : e ∈ freeEdges q := by rw [h]; simp
          have := hm.on_freeEdges e he
          omega
      rw [hnil]
      simp [colourNumber]
  · rw [(k5 hall).2]
    have := colourNumber_lt C _ _ k1.on_freeEdges
    rw [(k5 hall).2] at this
    exact (Nat.mod_eq_of_lt this).symm

/-! ## Repeated calls of `nextColor` -/

theorem nextColorIter_succ (q : Nat) (C : Int) (db : List (Nat × Nat × Nat)) (count : Nat)
    (k : Nat) (m : Mat) :
    nextColorIter q C db count (k + 1) m =
      (nextColor q C db count (nextColorIter q C db count k m)).1 := by
  induction k generalizing m with
  | zero => rfl
  | succ k ih =>
    rw [nextColorIter, ih]
    rfl

theorem IsColoring.of_one {q : Nat} {m : Mat} (h : IsColoring q 1 m) (C : Nat) (hC : 1 ≤ C) :
    IsColoring q C m := by
  refine ⟨h.1, fun i hi j hj hij => ?_⟩
  have := h.2 i hi j hj hij
  have hC2 : (1 : Int) ≤ (C : Int) := by exact_mod_cast hC
  exact ⟨this.1, le_trans this.2 hC2⟩

theorem IsColoring.number_zero {q : Nat} {m : Mat} (h : IsColoring q 1 m) (C : Nat) :
    colourNumber C m (freeEdges q) = 0 := by
  refine colourNumber_all_one C m _ fun e he => ?_
  have := IsColoring.on_freeEdges (C := 1) (by exact_mod_cast h) e he
  omega

theorem nextColorIter_spec (q C : Nat) (db : List (Nat × Nat × Nat)) (count : Nat)
    (m0 : Mat) (h0 : IsColoring q C m0) (hz : colourNumber C m0 (freeEdges q) = 0)
    (k : Nat) (hk : k < C ^ (freeEdges q).length) :
    IsColoring q C (nextColorIter q C db count k m0) ∧
    SameDirections q m0 (nextColorIter q C db count k m0) ∧
    colourNumber C (nextColorIter q C db count k m0) (freeEdges q) = k ∧
    (nextColorIter q C db count k m0) 0 1 = m0 0 1 ∧
    (nextColorIter q C db count k m0) 1 0 = m0 1 0 := by
  induction k with
  | zero => exact ⟨h0, SameDirections.refl q m0, hz, rfl, rfl⟩
  | succ k ih =>
    obtain ⟨i1, i2, i3, i4, i5⟩ := ih (by omega)
    have hC : 1 ≤ C := by
      rcases Nat.eq_zero_or_pos C with h | h
      · subst h
        have : 0 ^ (freeEdges q).length ≤ 1 := by
          rcases Nat.eq_zero_or_pos (freeEdges q).length with h | h
          · rw [h]; simp
          · rw [Nat.zero_pow h]; omega
        omega
      · exact h
    obtain ⟨k1, k2, _, _, k5⟩ := nextColor_spec q C db count _ i1
    have kf := nextColor_fixed q C db count _ i1
    have hnall : ¬ ∀ e ∈ freeEdges q,
        ((nextColorIter q C db count k m0) e.1 e.2).natAbs = C := by
      intro hall
      have := colourNumber_all_max C _ _ hall hC
      omega
    rw [nextColorIter_succ]
    exact ⟨k1, i2.trans k2, by rw [(k5 hnall).2, i3], by rw [kf.1, i4], by rw [kf.2, i5]⟩

theorem nextColor_iter_score (q C : Nat) (db : List (Nat × Nat × Nat)) (count : Nat)
    (m0 : Mat) (h0 : IsColoring q C m0) (hz : colourNumber C m0 (freeEdges q) = 0)
    (k : Nat) (hk : k + 1 < C ^ (freeEdges q).length) :
    (nextColor q C db count (nextColorIter q C db count k m0)).2 =
      countDepth2Reachability q (nextColorIter q C db count (k + 1) m0) db count := by
  have i1 := nextColorIter_spec q C db count m0 h0 hz (k + 1) hk
  have i0 := nextColorIter_spec q C db count m0 h0 hz k (by omega)
  obtain ⟨_, _, _, k4, k5⟩ := nextColor_spec q C db count _ i0.1
  by_cases hall : ∀ e ∈ freeEdges q, ((nextColorIter q C db count k m0) e.1 e.2).natAbs = C
  · have h1 := colourNumber_all_one C _ _ (k4 hall).2
    rw [← nextColorIter_succ, i1.2.2.1] at h1
    omega
  · rw [nextColorIter_succ]
    exact (k5 hall).1

theorem nextColor_iter_last (q C : Nat) (db : List (Nat × Nat × Nat)) (count : Nat)
    (m0 : Mat) (h0 : IsColoring q C m0) (hz : colourNumber C m0 (freeEdges q) = 0)
    (k : Nat) (hk : k + 1 = C ^ (freeEdges q).length) :
    (nextColor q C db count (nextColorIter q C db count k m0)).2 = 0 ∧
    ∀ e ∈ freeEdges q, ((nextColorIter q C db count (k + 1) m0) e.1 e.2).natAbs = 1 := by
  have i0 := nextColorIter_spec q C db count m0 h0 hz k (by omega)
  obtain ⟨k1, _, _, k4, k5⟩ := nextColor_spec q C db count _ i0.1
  by_cases hall : ∀ e ∈ freeEdges q, ((nextColorIter q C db count k m0) e.1 e.2).natAbs = C
  · rw [nextColorIter_succ]
    exact k4 hall
  · have h1 := (k5 hall).2
    have h2 := colourNumber_lt C _ _ k1.on_freeEdges
    rw [h1, i0.2.2.1] at h2
    omega

theorem nextColorLoop_no_colours (q : Nat) (C : Int) (hC : C ≤ 0)
    (db : List (Nat × Nat × Nat)) (count : Nat) (es : List (Nat × Nat)) (m : Mat) :
    (nextColorLoop q C db count es m).2 = 0 := by
  induction es generalizing m with
  | nil => rfl
  | cons e es ih =>
    obtain ⟨i, j⟩ := e
    by_cases hs : i + j = 1
    · rw [nextColorLoop_skip _ _ _ _ _ _ _ _ hs]
      exact ih m
    · have hc : ¬ |m i j| < C := by
        have := abs_nonneg (m i j)
        omega
      rw [nextColorLoop_reset _ _ _ _ _ _ _ _ hs hc]
      exact ih _

theorem colourNumber_eq_of_matEqOn (q C : Nat) (a b : Mat) (h : MatEqOn q a b) :
    colourNumber C a (freeEdges q) = colourNumber C b (freeEdges q) := by
  refine colourNumber_congr C b a _ fun e he => ?_
  have := freeEdges_lt q e he
  exact h e.1 (by omega) e.2 this.2.1

/-! ## A colouring is determined by its directions and its colours -/

theorem matEqOn_of_colours (q : Nat) (a b : Mat) (ha : IsTournament q a)
    (hb : IsTournament q b) (hd : SameDirections q a b)
    (hcol : ∀ i j, i < j → j < q → (a i j).natAbs = (b i j).natAbs) : MatEqOn q a b := by
  have key : ∀ i j, i < j → j < q → a i j = b i j := by
    intro i j hij hj
    have h1 := hcol i j hij hj
    have h2 := hd i (by omega) j hj
    omega
  intro i hi j hj
  rcases Nat.lt_trichotomy i j with h | h | h
  · exact key i j h hj
  · subst h
    rw [(ha i hi i hi).1, (hb i hi i hi).1]
  · rw [(ha i hi j hj).2.1, (hb i hi j hj).2.1, key j i h hi]

theorem initialColoring_apply (m : Mat) (i j : Nat) :
    (initialColoring m) i j = if m i j > 0 then 1 else if m i j < 0 then -1 else 0 := rfl

theorem initialColoring_sameDirections (q : Nat) (m : Mat) :
    SameDirections q m (initialColoring m) := by
  intro i _ j _
  rw [initialColoring_apply]
  constructor <;> split_ifs <;> omega

theorem initialColoring_isTournament (q : Nat) (m : Mat) (h : IsTournament q m) :
    IsTournament q (initialColoring m) := by
  intro i hi j hj
  obtain ⟨h1, h2, h3⟩ := h i hi j hj
  simp only [initialColoring_apply]
  refine ⟨?_, ?_, ?_⟩
  · split_ifs <;> omega
  · split_ifs <;> omega
  · intro hij
    have := h3 hij
    split_ifs <;> omega

theorem initialColoring_natAbs (q : Nat) (m : Mat) (h : IsTournament q m) (i j : Nat)
    (hi : i < q) (hj : j < q) (hij : i ≠ j) : ((initialColoring m) i j).natAbs = 1 := by
  have := (h i hi j hj).2.2 hij
  rw [initialColoring_apply]
  split_ifs <;> omega

/-! ## The reference score on colourings of one tournament -/

theorem refScore_le_of_imp (q : Nat) (a b : Mat)
    (h : ∀ u < q, ∀ v < q, monoDominates q a u v → monoDominates q b u v) :
    refScore q a ≤ refScore q b := by
  unfold refScore
  apply Finset.card_le_card
  intro p hp
  rw [Finset.mem_filter, Finset.mem_product, Finset.mem_range, Finset.mem_range] at hp ⊢
  exact ⟨hp.1, h p.1 hp.1.1 p.2 hp.1.2 hp.2⟩

theorem monoDominates_of_matEqOn (q : Nat) (a b : Mat) (h : MatEqOn q a b) (u v : Nat)
    (hu : u < q) (hv : v < q) (hd : monoDominates q a u v) : monoDominates q b u v := by
  obtain ⟨hne, hd | ⟨w, hw, h1, h2, e⟩⟩ := hd
  · exact ⟨hne, Or.inl (by rw [← h u hu v hv]; exact hd)⟩
  · refine ⟨hne, Or.inr ⟨w, hw, ?_, ?_, ?_⟩⟩
    · rw [← h u hu w hw]; exact h1
    · rw [← h w hw v hv]; exact h2
    · rw [← h u hu w hw, ← h w hw v hv]; exact e

theorem matEqOn_comm {q : Nat} {a b : Mat} (h : MatEqOn q a b) : MatEqOn q b a :=
  fun i hi j hj => (h i hi j hj).symm

theorem refScore_congr (q : Nat) (a b : Mat) (h : MatEqOn q a b) :
    refScore q a = refScore q b :=
  le_antisymm (refScore_le_of_imp q a b fun u hu v hv => monoDominates_of_matEqOn q a b h u v hu hv)
    (refScore_le_of_imp q b a fun u hu v hv =>
      monoDominates_of_matEqOn q b a (matEqOn_comm h) u v hu hv)

theorem refScore_swapColors (q : Nat) (m : Mat) : refScore q (swapColors m) = refScore q m := by
  unfold refScore
  congr 1
  apply Finset.filter_congr
  intro p _
  unfold monoDominates
  simp only [swapColors_apply, swapColor_pos]
  constructor
  · rintro ⟨hne, hd | ⟨w, hw, h1, h2, e⟩⟩
    · exact ⟨hne, Or.inl hd⟩
    · refine ⟨hne, Or.inr ⟨w, hw, h1, h2, ?_⟩⟩
      rw [abs_of_pos ((swapColor_pos _).2 h1), abs_of_pos ((swapColor_pos _).2 h2),
        swapColor_inj] at e
      rw [e]
  · rintro ⟨hne, hd | ⟨w, hw, h1, h2, e⟩⟩
    · exact ⟨hne, Or.inl hd⟩
    · refine ⟨hne, Or.inr ⟨w, hw, h1, h2, ?_⟩⟩
      rw [abs_of_pos h1, abs_of_pos h2] at e
      rw [e]

/-- The colouring with one colour dominates every colouring of the same tournament. -/
theorem refScore_le_initial (q : Nat) (m0 c : Mat) (h0 : IsColoring q 1 m0)
    (hd : SameDirections q m0 c) : refScore q c ≤ refScore q m0 := by
  refine refScore_le_of_imp q c m0 fun u hu v hv => ?_
  rintro ⟨hne, hdir | ⟨w, hw, h1, h2, _⟩⟩
  · exact ⟨hne, Or.inl ((hd u hu v hv).1.2 hdir)⟩
  · have p1 := (hd u hu w hw).1.2 h1
    have p2 := (hd w hw v hv).1.2 h2
    have d1 := (h0.1 u hu u hu).1
    have d2 := (h0.1 w hw w hw).1
    have a1 := h0.2 u hu w hw (by rintro rfl; omega)
    have a2 := h0.2 w hw v hv (by rintro rfl; omega)
    refine ⟨hne, Or.inr ⟨w, hw, p1, p2, ?_⟩⟩
    rw [le_antisymm a1.2 a1.1, le_antisymm a2.2 a2.1]

theorem flatMap_congr_mem {α β : Type} (l : List α) (f g : α → List β)
    (h : ∀ x ∈ l, f x = g x) : l.flatMap f = l.flatMap g := by
  induction l with
  | nil => rfl
  | cons x xs ih =>
    rw [List.flatMap_cons, List.flatMap_cons, h x (List.mem_cons_self _ _),
      ih fun y hy => h y (List.mem_cons_of_mem _ hy)]

theorem triangleTest_congr (q : Nat) (a b : Mat) (hd : SameDirections q a b) (i j k : Nat)
    (hi : i < q) (hj : j < q) (hk : k < q) : triangleTest a i j k = triangleTest b i j k := by
  unfold triangleTest
  have h1 := hd i hi j hj
  have h2 := hd j hj k hk
  have h3 := hd k hk i hi
  simp only [gt_iff_lt, decide_eq_decide.2 h1.1, decide_eq_decide.2 h1.2,
    decide_eq_decide.2 h2.1, decide_eq_decide.2 h2.2, decide_eq_decide.2 h3.1,
    decide_eq_decide.2 h3.2]

theorem triangleList_congr (q : Nat) (a b : Mat) (hd : SameDirections q a b) :
    triangleList q a = triangleList q b := by
  unfold triangleList
  refine flatMap_congr_mem _ _ _ fun i hi => flatMap_congr_mem _ _ _ fun j hj =>
    flatMap_congr_mem _ _ _ fun k hk => ?_
  rw [List.mem_range'_1] at hi hj hk
  rw [triangleTest_congr q a b hd i j k (by omega) (by omega) (by omega)]

/-- The value returned for a colouring `c` of the tournament whose triangles were computed
from `m0` is the reference score of `c`. -/
theorem score_eq_refScore (q : Nat) (m0 c : Mat) (hc : IsTournament q c)
    (hd : SameDirections q m0 c) :
    countDepth2Reachability q c (directedTrainaglesDBSet q m0).1 (directedTrainaglesDBSet q m0).2
      = (refScore q c : Int) := by
  rw [directedTrainaglesDBSet_eq, triangleList_congr q m0 c hd]
  exact countDepth2Reachability_triangleList q c hc

/-! ## The search loop of `checkAllColorings` -/

theorem checkAllColoringsLoop_succ (q : Nat) (C : Int) (rf : Int)
    (db : List (Nat × Nat × Nat)) (count : Nat) (fuel : Nat) (m : Mat) (μ : Int) :
    checkAllColoringsLoop q C rf db count (fuel + 1) m μ =
      if (nextColor q C db count m).2 > 0 then
        if (nextColor q C db count m).2 ≤ rf then
          some ((nextColor q C db count m).1, (nextColor q C db count m).2)
        else checkAllColoringsLoop q C rf db count fuel (nextColor q C db count m).1
          (if (nextColor q C db count m).2 < μ then (nextColor q C db count m).2 else μ)
      else some ((nextColor q C db count m).1, μ) := rfl

/-- The search loop started after `k` calls of `nextColor` with running minimum `μ`: either it
stops at the first later colouring whose score is at most `resultFilter` and returns that
score, or no such colouring exists and it returns the minimum of `μ` and all later scores. -/
theorem checkAllColoringsLoop_spec (q C : Nat) (rf : Int) (db : List (Nat × Nat × Nat))
    (count : Nat) (m0 : Mat) (hq : 2 ≤ q) (h0 : IsColoring q C m0)
    (hz : colourNumber C m0 (freeEdges q) = 0) (fuel : Nat) (k : Nat) (μ : Int)
    (hk : k < C ^ (freeEdges q).length) (hfuel : C ^ (freeEdges q).length - k ≤ fuel) :
    ∃ mOut res,
      checkAllColoringsLoop q C rf db count fuel (nextColorIter q C db count k m0) μ =
        some (mOut, res) ∧
      ((∃ l, k < l ∧ l < C ^ (freeEdges q).length ∧ scoreAt q C db count m0 l ≤ rf ∧
          res = scoreAt q C db count m0 l ∧ mOut = nextColorIter q C db count l m0 ∧
          ∀ l2, k < l2 → l2 < l → rf < scoreAt q C db count m0 l2) ∨
       ((∀ l, k < l → l < C ^ (freeEdges q).length → rf < scoreAt q C db count m0 l) ∧
          mOut = nextColorIter q C db count (C ^ (freeEdges q).length) m0 ∧
          res ≤ μ ∧
          (∀ l, k < l → l < C ^ (freeEdges q).length → res ≤ scoreAt q C db count m0 l) ∧
          (res = μ ∨ ∃ l, k < l ∧ l < C ^ (freeEdges q).length ∧
            res = scoreAt q C db count m0 l))) := by
  induction fuel generalizing k μ with
  | zero => omega
  | succ fuel ih =>
    rw [checkAllColoringsLoop_succ]
    by_cases hlast : k + 1 = C ^ (freeEdges q).length
    · -- the enumerator reports the end
      have h1 := (nextColor_iter_last q C db count m0 h0 hz k hlast).1
      rw [h1, if_neg (by omega)]
      refine ⟨_, _, rfl, Or.inr ⟨fun l h2 h3 => by omega, ?_, le_refl _,
        fun l h2 h3 => by omega, Or.inl rfl⟩⟩
      rw [← hlast, nextColorIter_succ]
    · have hk1 : k + 1 < C ^ (freeEdges q).length := by omega
      have hs := nextColor_iter_score q C db count m0 h0 hz k hk1
      have hpos : 0 < scoreAt q C db count m0 (k + 1) :=
        score_pos q _ (nextColorIter_spec q C db count m0 h0 hz (k + 1) hk1).1.1 hq db count
      have hs2 : (nextColor q C db count (nextColorIter q C db count k m0)).2 =
          scoreAt q C db count m0 (k + 1) := hs
      rw [hs2, if_pos hpos, ← nextColorIter_succ]
      by_cases hexit : scoreAt q C db count m0 (k + 1) ≤ rf
      · rw [if_pos hexit]
        exact ⟨_, _, rfl, Or.inl ⟨k + 1, by omega, hk1, hexit, rfl, rfl,
          fun l2 h2 h3 => by omega⟩⟩
      · rw [if_neg hexit]
        obtain ⟨mOut, res, e, hres⟩ := ih (k + 1)
          (if scoreAt q C db count m0 (k + 1) < μ then scoreAt q C db count m0 (k + 1) else μ)
          hk1 (by omega)
        refine ⟨mOut, res, e, ?_⟩
        rcases hres with ⟨l, l1, l2, l3, l4, l5, l6⟩ | ⟨r1, r2, r3, r4, r5⟩
        · refine Or.inl ⟨l, by omega, l2, l3, l4, l5, fun l2 h2 h3 => ?_⟩
          by_cases h4 : l2 = k + 1
          · subst h4; omega
          · exact l6 l2 (by omega) h3
        · have hall : ∀ l, k < l → l < C ^ (freeEdges q).length →
              res ≤ scoreAt q C db count m0 l ∧ rf < scoreAt q C db count m0 l := by
            intro l h2 h3
            by_cases h4 : l = k + 1
            · subst h4
              refine ⟨?_, by omega⟩
              split_ifs at r3 <;> omega
            · exact ⟨r4 l (by omega) h3, r1 l (by omega) h3⟩
          refine Or.inr ⟨fun l h2 h3 => (hall l h2 h3).2, r2, ?_,
            fun l h2 h3 => (hall l h2 h3).1, ?_⟩
          · split_ifs at r3 <;> omega
          · rcases r5 with r5 | ⟨l, l1, l2, l3⟩
            · by_cases hlt : scoreAt q C db count m0 (k + 1) < μ
              · rw [if_pos hlt] at r5
                exact Or.inr ⟨k + 1, by omega, hk1, r5⟩
              · rw [if_neg hlt] at r5
                exact Or.inl r5
            · exact Or.inr ⟨l, by omega, l2, l3⟩

/-- Whatever the fuel, a value returned by the search loop is at most the running minimum
or at most `resultFilter`. -/
theorem checkAllColoringsLoop_le (q : Nat) (C : Int) (rf : Int)
    (db : List (Nat × Nat × Nat)) (count : Nat) (fuel : Nat) (m : Mat) (μ : Int)
    (mOut : Mat) (res : Int)
    (h : checkAllColoringsLoop q C rf db count fuel m μ = some (mOut, res)) :
    res ≤ μ ∨ res ≤ rf := by
  induction fuel generalizing m μ with
  | zero => simp [checkAllColoringsLoop] at h
  | succ fuel ih =>
    rw [checkAllColoringsLoop_succ] at h
    split_ifs at h with h1 h2 h3
    · simp only [Option.some.injEq, Prod.mk.injEq] at h
      right; omega
    · rcases ih _ _ h with h4 | h4
      · left; omega
      · right; exact h4
    · rcases ih _ _ h with h4 | h4
      · left; omega
      · right; exact h4
    · simp only [Option.some.injEq, Prod.mk.injEq] at h
      left; omega

/-! ## Every colouring with edge `(0, 1)` at colour 1 is met by the enumeration -/

theorem exists_iter_matEqOn (q C : Nat) (db : List (Nat × Nat × Nat)) (count : Nat)
    (m0 c : Mat) (h0 : IsColoring q 1 m0) (hC : 1 ≤ C) (hc : IsColoring q C c)
    (hd : SameDirections q m0 c) (h01 : (c 0 1).natAbs = 1) :
    ∃ k, k < C ^ (freeEdges q).length ∧ MatEqOn q c (nextColorIter q C db count k m0) := by
  have hk := colourNumber_lt C c _ hc.on_freeEdges
  have hspec := nextColorIter_spec q C db count m0 (h0.of_one C hC) (h0.number_zero C) _ hk
  obtain ⟨i1, i2, i3, i4, _⟩ := hspec
  refine ⟨_, hk, matEqOn_of_colours q _ _ hc.1 i1.1 (hd.symm.trans i2) fun i j hij hj => ?_⟩
  by_cases hne : (i, j) = (0, 1)
  · simp only [Prod.mk.injEq] at hne
    obtain ⟨rfl, rfl⟩ := hne
    rw [i4, h01]
    have := IsColoring.natAbs_bounds (C := 1) (by exact_mod_cast h0) 0 1 (by omega) hj (by omega)
    omega
  · exact colourNumber_inj C _ _ _ hc.on_freeEdges i1.on_freeEdges i3.symm (i, j)
      ((mem_freeEdges q i j).2 ⟨hij, hj, hne⟩)

/-! ## The minimum found by `checkAllColorings` -/

theorem two_le_length_freeEdges (q : Nat) (hq : 3 ≤ q) : 2 ≤ (freeEdges q).length := by
  rw [length_freeEdges q (by omega)]
  have h1 : 3 * 2 ≤ q * (q - 1) := Nat.mul_le_mul hq (by omega)
  omega

theorem scoreAt_eq_refScore (q C : Nat) (m0 : Mat) (h0 : IsColoring q 1 m0) (hC : 1 ≤ C)
    (l : Nat) (hl : l < C ^ (freeEdges q).length) :
    scoreAt q C (directedTrainaglesDBSet q m0).1 (directedTrainaglesDBSet q m0).2 m0 l =
      (refScore q (nextColorIter q C (directedTrainaglesDBSet q m0).1
        (directedTrainaglesDBSet q m0).2 l m0) : Int) := by
  have h := nextColorIter_spec q C (directedTrainaglesDBSet q m0).1
    (directedTrainaglesDBSet q m0).2 m0 (h0.of_one C hC) (h0.number_zero C) l hl
  exact score_eq_refScore q m0 _ h.1.1 h.2.1

/-- With two colours, every colouring of the tournament has the score of one of the
colourings met by the enumeration (swap the colours if edge `(0, 1)` has colour 2). -/
theorem exists_iter_refScore (q : Nat) (m0 c : Mat) (hq : 2 ≤ q) (h0 : IsColoring q 1 m0)
    (hc : IsColoring q 2 c) (hd : SameDirections q m0 c) (db : List (Nat × Nat × Nat))
    (count : Nat) :
    ∃ k, k < 2 ^ (freeEdges q).length ∧
      refScore q c = refScore q (nextColorIter q (2 : Nat) db count k m0) := by
  have hnorm : ∃ c2, IsColoring q (2 : Nat) c2 ∧ SameDirections q m0 c2 ∧
      refScore q c2 = refScore q c ∧ (c2 0 1).natAbs = 1 := by
    have hb := IsColoring.natAbs_bounds (C := 2) (by exact_mod_cast hc) 0 1 (by omega)
      (by omega) (by omega)
    by_cases h1 : (c 0 1).natAbs = 1
    · exact ⟨c, by exact_mod_cast hc, hd, rfl, h1⟩
    · refine ⟨swapColors c, by exact_mod_cast swapColors_isColoring q c hc,
        hd.trans (swapColors_sameDirections q c), refScore_swapColors q c, ?_⟩
      have h2 := swapColor_abs (c 0 1) (by rw [Int.abs_eq_natAbs]; omega)
        (by rw [Int.abs_eq_natAbs]; omega)
      rw [Int.abs_eq_natAbs, Int.abs_eq_natAbs] at h2
      rw [swapColors_apply]
      omega
  obtain ⟨c2, hc2, hd2, hcv2, h01⟩ := hnorm
  obtain ⟨k, hk, heq⟩ := exists_iter_matEqOn q 2 db count m0 c2 h0 (by omega) hc2 hd2 h01
  exact ⟨k, hk, by rw [← hcv2, refScore_congr q _ _ heq]⟩

/-- With two colours, the scores of the colourings met by the enumeration are all at least
`s(Q)`, and one of them is `s(Q)`. -/
theorem scoreAt_min (q : Nat) (m0 : Mat) (hq : 3 ≤ q) (h0 : IsColoring q 1 m0) (v : Int)
    (hv : IsMinScore q 2 m0 v) :
    (∀ l, l < 2 ^ (freeEdges q).length →
      v ≤ scoreAt q (2 : Nat) (directedTrainaglesDBSet q m0).1
        (directedTrainaglesDBSet q m0).2 m0 l) ∧
    ∃ l, 0 < l ∧ l < 2 ^ (freeEdges q).length ∧
      scoreAt q (2 : Nat) (directedTrainaglesDBSet q m0).1
        (directedTrainaglesDBSet q m0).2 m0 l = v := by
  have hiter := fun l hl => nextColorIter_spec q 2 (directedTrainaglesDBSet q m0).1
    (directedTrainaglesDBSet q m0).2 m0 (h0.of_one 2 (by omega)) (h0.number_zero 2) l hl
  have hscore := fun l hl => scoreAt_eq_refScore q 2 m0 h0 (by omega) l hl
  have hge : ∀ l, l < 2 ^ (freeEdges q).length →
      v ≤ scoreAt q (2 : Nat) (directedTrainaglesDBSet q m0).1
        (directedTrainaglesDBSet q m0).2 m0 l := by
    intro l hl
    rw [hscore l hl]
    exact hv.2 _ (hiter l hl).1 (hiter l hl).2.1
  refine ⟨hge, ?_⟩
  obtain ⟨⟨c, hc, hd, hcv⟩, _⟩ := hv
  obtain ⟨k, hk, heq⟩ := exists_iter_refScore q m0 c (by omega) h0 hc hd
    (directedTrainaglesDBSet q m0).1 (directedTrainaglesDBSet q m0).2
  have hkv : scoreAt q (2 : Nat) (directedTrainaglesDBSet q m0).1
      (directedTrainaglesDBSet q m0).2 m0 k = v := by
    rw [hscore k hk, ← heq]
    exact hcv
  have hlen := two_le_length_freeEdges q hq
  have hN : 2 ^ 1 < 2 ^ (freeEdges q).length := Nat.pow_lt_pow_right (by omega) (by omega)
  rcases Nat.eq_zero_or_pos k with hk0 | hk0
  · -- the minimum is the score of the initial colouring: every colouring has this score
    subst hk0
    refine ⟨1, by omega, by omega, le_antisymm ?_ (hge 1 (by omega))⟩
    rw [← hkv, hscore 1 (by omega), hscore 0 (by omega)]
    have := refScore_le_initial q m0 _ h0 (hiter 1 (by omega)).2.1
    exact_mod_cast this
  · exact ⟨k, hk0, hk, hkv⟩

/-- With two colours, `checkAllColorings` run with enough fuel returns a value: the smaller
of 5000 and `s(Q)` when `resultFilter` is below `s(Q)`, and a value that is at most
`resultFilter` otherwise. -/
theorem checkAllColorings_result (q : Nat) (m0 : Mat) (rf : Int) (hq : 3 ≤ q)
    (h0 : IsColoring q 1 m0) (fuel : Nat) (hfuel : 2 ^ (freeEdges q).length ≤ fuel) :
    ∃ mOut res, checkAllColorings q (2 : Nat) rf (directedTrainaglesDBSet q m0).1
      (directedTrainaglesDBSet q m0).2 fuel m0 = some (mOut, res) ∧
      ∀ v, IsMinScore q 2 m0 v → (rf < v → res = min 5000 v) ∧ (v ≤ rf → res ≤ rf) := by
  obtain ⟨mOut, res, e, hres⟩ := checkAllColoringsLoop_spec q 2 rf
    (directedTrainaglesDBSet q m0).1 (directedTrainaglesDBSet q m0).2 m0 (by omega)
    (h0.of_one 2 (by omega)) (h0.number_zero 2) fuel 0 5000
    (Nat.pow_pos (by omega)) (le_trans (Nat.sub_le _ _) hfuel)
  refine ⟨mOut, res, e, fun v hv => ?_⟩
  obtain ⟨hge, l0, hl0, hl1, hl2⟩ := scoreAt_min q m0 hq h0 v hv
  constructor
  · intro hrf
    rcases hres with ⟨l, _, l2, l3, _⟩ | ⟨_, _, r3, r4, r5⟩
    · have := hge l l2
      omega
    · have h1 := r4 l0 hl0 hl1
      rcases r5 with r5 | ⟨l, _, l2, l3⟩
      · rw [hl2] at h1
        omega
      · have := hge l l2
        rw [hl2] at h1
        omega
  · intro hrf
    rcases hres with ⟨l, _, l2, l3, l4, _⟩ | ⟨r1, _⟩
    · omega
    · have := r1 l0 hl0 hl1
      omega

/-! ## Transitive tournaments and the upper bound of the score -/

theorem transitiveT_apply (i j : Nat) :
    transitiveT i j = if i < j then 1 else if j < i then -1 else 0 := rfl

theorem transitiveT_isColoring (q : Nat) (C : Int) (hC : 1 ≤ C) : IsColoring q C transitiveT := by
  refine ⟨fun i _ j _ => ?_, fun i _ j _ hij => ?_⟩
  · simp only [transitiveT_apply]
    refine ⟨by simp, ?_, fun hij => ?_⟩
    · split_ifs <;> omega
    · split_ifs <;> omega
  · rw [transitiveT_apply]
    split_ifs
    · simpa using hC
    · simpa using hC
    · omega

theorem triangleList_transitive (q : Nat) (c : Mat) (hd : SameDirections q transitiveT c) :
    triangleList q c = [] := by
  rw [← triangleList_congr q transitiveT c hd]
  apply List.eq_nil_iff_forall_not_mem.2
  rintro ⟨i, j, k⟩ h
  rw [mem_triangleList] at h
  obtain ⟨h1, h2, _, h4⟩ := h
  rcases triangleTest_cases _ _ _ _ h4 with ⟨_, _, p⟩ | ⟨p, _, _⟩
  · rw [transitiveT_apply] at p
    split_ifs at p <;> omega
  · rw [transitiveT_apply] at p
    split_ifs at p
    omega

theorem refScore_of_no_triangle (q : Nat) (c : Mat) (hc : IsTournament q c)
    (h : triangleList q c = []) :
    ((refScore q c : Nat) : Int) * 2 = (q : Int) * ((q : Int) - 1) := by
  have h1 := countDepth2Reachability_triangleList q c hc
  rw [h, countDepth2Reachability_eq, sumReachability_eq] at h1
  have h2 : (∑ i in Finset.range q, ∑ j in Finset.range q, (finalReachability q c []) i j) =
      posSum q c := by
    unfold posSum finalReachability
    refine Finset.sum_congr rfl fun i hi => Finset.sum_congr rfl fun j hj => ?_
    rw [List.foldl_nil, initReachability_apply,
      if_pos ⟨Finset.mem_range.1 hi, Finset.mem_range.1 hj⟩]
  rw [h2] at h1
  have h3 := two_mul_posSum q c hc
  omega

theorem isMinScore_transitive (q : Nat) (C : Int) (hC : 1 ≤ C) (v : Int)
    (hv : v * 2 = (q : Int) * ((q : Int) - 1)) : IsMinScore q C transitiveT v := by
  have key : ∀ c, IsColoring q C c → SameDirections q transitiveT c →
      ((refScore q c : Nat) : Int) = v := by
    intro c hc hd
    have := refScore_of_no_triangle q c hc.1 (triangleList_transitive q c hd)
    omega
  exact ⟨⟨transitiveT, transitiveT_isColoring q C hC, SameDirections.refl q _,
    key _ (transitiveT_isColoring q C hC) (SameDirections.refl q _)⟩,
    fun c hc hd => le_of_eq (key c hc hd).symm⟩

theorem refScore_le (q : Nat) (m : Mat) : refScore q m ≤ q * (q - 1) := by
  unfold refScore
  have h1 : ((Finset.range q ×ˢ Finset.range q).filter
      (fun p => monoDominates q m p.1 p.2)) ⊆ (Finset.range q).offDiag := by
    intro p hp
    rw [Finset.mem_filter, Finset.mem_product] at hp
    rw [Finset.mem_offDiag]
    exact ⟨hp.1.1, hp.1.2, hp.2.1⟩
  have h2 := Finset.card_le_card h1
  rw [Finset.offDiag_card, Finset.card_range] at h2
  have h3 : q * q - q = q * (q - 1) := by
    cases q with
    | zero => rfl
    | succ n => simp [Nat.mul_succ]
  omega

/-! ## The loop of `main` -/

theorem mainLoop_spec (q : Nat) (C : Int) (filter fuel : Nat) (tournamentDB : Nat → Mat)
    (n r : Nat)
    (h : ∀ i, i < n → ∃ x, mainBody q C filter fuel (tournamentDB (r + i)) = some x) :
    ∃ reports, mainLoop q C filter fuel tournamentDB r n = some reports ∧
      reports.length = n ∧
      ∀ i, i < n → reports[i]? = mainBody q C filter fuel (tournamentDB (r + i)) := by
  induction n generalizing r with
  | zero => exact ⟨[], rfl, rfl, fun i hi => by omega⟩
  | succ n ih =>
    obtain ⟨x, hx⟩ := h 0 (by omega)
    obtain ⟨xs, e, hlen, hxs⟩ := ih (r + 1) fun i hi => by
      have := h (i + 1) (by omega)
      rwa [show r + (i + 1) = r + 1 + i by omega] at this
    refine ⟨x :: xs, ?_, by simp [hlen], fun i hi => ?_⟩
    · rw [mainLoop]
      rw [Nat.add_zero] at hx
      rw [hx]
      simp only
      rw [e]
    · cases i with
      | zero => simpa using hx.symm
      | succ i =>
        have := hxs i (by omega)
        rw [show r + (i + 1) = r + 1 + i by omega]
        simpa using this

theorem numTournaments_bound (q n : Nat) (h : numTournaments[q]? = some n) : q ≤ 9 := by
  by_contra hq
  have : numTournaments[q]? = none := List.getElem?_eq_none (by simp [numTournaments]; omega)
  rw [this] at h
  exact Option.noConfusion h

theorem threshold_lt_sentinel (q : Nat) (hq : q ≤ 9) :
    2 * (q : Int) * ((q : Int) - 1) / 3 < 5000 := by
  interval_cases q <;> decide

/-! ## The minimum score of the 3-cycle -/

theorem isMinScore_cycle3 : IsMinScore 3 2 cycle3 4 := by
  refine ⟨⟨(nextColor 3 2 [(0, 1, 2)] 1 cycle3).1, by decide, by decide, by decide⟩,
    fun c hc hd => ?_⟩
  obtain ⟨k, hk, e⟩ := exists_iter_refScore 3 cycle3 c (by omega) (by decide) hc hd
    [(0, 1, 2)] 1
  rw [e]
  have hk4 : k < 4 := hk
  interval_cases k <;> decide

/-! ## The claims about the triangle list and the score -/

/-- Claim C1: for a tournament matrix and the triangle list that `directedTrainaglesDBSet`
produces for it, `countDepth2Reachability` returns the reference value `s(Q, c)`, the number
of ordered pairs `(u, v)`, `u ≠ v`, with `u → v` or `u → w → v` in one colour. -/
theorem countDepth2Reachability_eq_refScore (q : Nat) (m : Mat) (h : IsTournament q m) :
    countDepth2Reachability q m (directedTrainaglesDBSet q m).1 (directedTrainaglesDBSet q m).2
      = (refScore q m : Int) := by
  rw [directedTrainaglesDBSet_eq]
  exact countDepth2Reachability_triangleList q m h

theorem countDepth2Reachability_eq_refScore_witness :
    IsTournament 3 cycle3 ∧
    countDepth2Reachability 3 cycle3 (directedTrainaglesDBSet 3 cycle3).1
      (directedTrainaglesDBSet 3 cycle3).2 = (refScore 3 cycle3 : Int) :=
  ⟨by decide, countDepth2Reachability_eq_refScore 3 cycle3 (by decide)⟩

/-- Claim C8, as stated, fails on two vertices: the only colouring-independent score of the
tournament `0 → 1` is 1, which is below `q = 2`. -/
theorem score_lt_vertices_two :
    IsColoring 2 2 transitiveT ∧
    countDepth2Reachability 2 transitiveT (directedTrainaglesDBSet 2 transitiveT).1
      (directedTrainaglesDBSet 2 transitiveT).2 < 2 := by
  decide

/-- Claim C8, amended: for every tournament matrix (whatever its colouring) and whatever the
triangle rows read, `countDepth2Reachability` returns at least `q (q - 1) / 2`, the number of
edges, and hence at least `q` when `q` is neither 1 nor 2. -/
theorem edges_le_score (q : Nat) (m : Mat) (h : IsTournament q m)
    (db : List (Nat × Nat × Nat)) (count : Nat) :
    ((q * (q - 1) / 2 : Nat) : Int) ≤ countDepth2Reachability q m db count ∧
    (q ≠ 1 → q ≠ 2 → (q : Int) ≤ countDepth2Reachability q m db count) := by
  have h1 := edges_le_countDepth2Reachability q m h db count
  refine ⟨h1, fun q1 q2 => ?_⟩
  rcases Nat.eq_zero_or_pos q with h0 | h0
  · subst h0
    simpa using h1
  · have h2 := vertices_le_edges q (by omega)
    have h3 : (q : Int) ≤ ((q * (q - 1) / 2 : Nat) : Int) := by exact_mod_cast h2
    omega

theorem edges_le_score_witness :
    IsTournament 3 cycle3 ∧
    (((3 * (3 - 1) / 2 : Nat) : Int) ≤ countDepth2Reachability 3 cycle3 [(0, 1, 2)] 1 ∧
    ((3 : Nat) ≠ 1 → (3 : Nat) ≠ 2 →
      ((3 : Nat) : Int) ≤ countDepth2Reachability 3 cycle3 [(0, 1, 2)] 1)) :=
  ⟨by decide, edges_le_score 3 cycle3 (by decide) [(0, 1, 2)] 1⟩

/-- Claim C9: with two colours, the matrix with colours 1 and 2 swapped on every edge is a
colouring of the same tournament, has the same triangle list, and `countDepth2Reachability`
returns the same value on it as on the original matrix. -/
theorem countDepth2Reachability_swap_invariant (q : Nat) (m : Mat) (h : IsColoring q 2 m)
    (db : List (Nat × Nat × Nat)) (count : Nat) :
    IsColoring q 2 (swapColors m) ∧ SameDirections q m (swapColors m) ∧
    (∀ i < q, ∀ j < q, i ≠ j → |(swapColors m) i j| = 3 - |m i j|) ∧
    directedTrainaglesDBSet q (swapColors m) = directedTrainaglesDBSet q m ∧
    countDepth2Reachability q (swapColors m) db count =
      countDepth2Reachability q m db count := by
  refine ⟨swapColors_isColoring q m h, swapColors_sameDirections q m, ?_,
    directedTrainaglesDBSet_swapColors q m, countDepth2Reachability_swapColors q m db count⟩
  intro i hi j hj hij
  have := h.2 i hi j hj hij
  exact swapColor_abs _ this.1 this.2

theorem countDepth2Reachability_swap_invariant_witness :
    IsColoring 3 2 cycle3 ∧
    (IsColoring 3 2 (swapColors cycle3) ∧ SameDirections 3 cycle3 (swapColors cycle3) ∧
    (∀ i < 3, ∀ j < 3, i ≠ j → |(swapColors cycle3) i j| = 3 - |cycle3 i j|) ∧
    directedTrainaglesDBSet 3 (swapColors cycle3) = directedTrainaglesDBSet 3 cycle3 ∧
    countDepth2Reachability 3 (swapColors cycle3) [(0, 1, 2)] 1 =
      countDepth2Reachability 3 cycle3 [(0, 1, 2)] 1) :=
  ⟨by decide, countDepth2Reachability_swap_invariant 3 cycle3 (by decide) [(0, 1, 2)] 1⟩

/-- Claim C10: for a tournament matrix, `directedTrainaglesDBSet` records exactly the triples
`(i, j, k)`, `i < j < k < q`, that form a directed 3-cycle, each once, in strictly increasing
lexicographic order, and returns their number. -/
theorem directedTrainaglesDBSet_spec (q : Nat) (m : Mat) (h : IsTournament q m) :
    (∀ i j k, (i, j, k) ∈ (directedTrainaglesDBSet q m).1 ↔
      i < j ∧ j < k ∧ k < q ∧ IsDirectedTriangle m i j k) ∧
    (directedTrainaglesDBSet q m).1.Pairwise lexLt3 ∧
    (directedTrainaglesDBSet q m).1.Nodup ∧
    (directedTrainaglesDBSet q m).2 = (directedTrainaglesDBSet q m).1.length := by
  rw [directedTrainaglesDBSet_eq]
  refine ⟨fun i j k => ?_, triangleList_sorted q m, ?_, rfl⟩
  · rw [mem_triangleList]
    constructor
    · rintro ⟨h1, h2, h3, h4⟩
      exact ⟨h1, h2, h3, (triangleTest_iff q m h i j k (by omega) (by omega) h3).1 h4⟩
    · rintro ⟨h1, h2, h3, h4⟩
      exact ⟨h1, h2, h3, (triangleTest_iff q m h i j k (by omega) (by omega) h3).2 h4⟩
  · refine (triangleList_sorted q m).imp ?_
    intro a b hab e
    subst e
    exact lexLt3_irrefl a hab

theorem directedTrainaglesDBSet_spec_witness :
    IsTournament 3 cycle3 ∧
    ((∀ i j k, (i, j, k) ∈ (directedTrainaglesDBSet 3 cycle3).1 ↔
      i < j ∧ j < k ∧ k < 3 ∧ IsDirectedTriangle cycle3 i j k) ∧
    (directedTrainaglesDBSet 3 cycle3).1.Pairwise lexLt3 ∧
    (directedTrainaglesDBSet 3 cycle3).1.Nodup ∧
    (directedTrainaglesDBSet 3 cycle3).2 = (directedTrainaglesDBSet 3 cycle3).1.length) :=
  ⟨by decide, directedTrainaglesDBSet_spec 3 cycle3 (by decide)⟩

/-! ## The claims about `nextColor` -/

/-- Claim C4: started from the initial colouring (all magnitudes 1) of a tournament on
`q ≥ 2` vertices, the first `C ^ (q (q - 1) / 2 - 1) - 1` calls of `nextColor` return a
non-zero value, the matrices met (the initial one included) belong to the same tournament,
are valid colourings and differ pairwise, and the next call returns 0. -/
theorem nextColor_visits_all (q C : Nat) (db : List (Nat × Nat × Nat)) (count : Nat)
    (m0 : Mat) (hq : 2 ≤ q) (h0 : IsColoring q 1 m0) :
    (∀ k, k + 1 < C ^ (q * (q - 1) / 2 - 1) →
      0 < (nextColor q C db count (nextColorIter q C db count k m0)).2) ∧
    (∀ k, k < C ^ (q * (q - 1) / 2 - 1) →
      SameDirections q m0 (nextColorIter q C db count k m0) ∧
      (1 ≤ C → IsColoring q C (nextColorIter q C db count k m0))) ∧
    (∀ k l, k < l → l < C ^ (q * (q - 1) / 2 - 1) →
      ¬ MatEqOn q (nextColorIter q C db count k m0) (nextColorIter q C db count l m0)) ∧
    (nextColor q C db count
      (nextColorIter q C db count (C ^ (q * (q - 1) / 2 - 1) - 1) m0)).2 = 0 := by
  rw [← length_freeEdges q hq]
  rcases Nat.eq_zero_or_pos C with hC | hC
  · -- no colour: the very first call reports the end
    subst hC
    have hle : 0 ^ (freeEdges q).length ≤ 1 := by
      rcases Nat.eq_zero_or_pos (freeEdges q).length with h | h
      · rw [h]; simp
      · rw [Nat.zero_pow h]; omega
    refine ⟨fun k hk => by omega, fun k hk => ?_, fun k l hkl hl => by omega, ?_⟩
    · have hk0 : k = 0 := by omega
      subst hk0
      exact ⟨SameDirections.refl q m0, fun h => by omega⟩
    · exact nextColorLoop_no_colours q _ (by simp) db count _ _
  · have hC1 : IsColoring q C m0 := h0.of_one C hC
    have hz := h0.number_zero (q := q) C
    have hN : 0 < C ^ (freeEdges q).length := Nat.pow_pos hC
    refine ⟨fun k hk => ?_, fun k hk => ?_, fun k l hkl hl => ?_, ?_⟩
    · rw [nextColor_iter_score q C db count m0 hC1 hz k hk]
      exact score_pos q _ (nextColorIter_spec q C db count m0 hC1 hz (k + 1) hk).1.1 hq db count
    · have := nextColorIter_spec q C db count m0 hC1 hz k hk
      exact ⟨this.2.1, fun _ => this.1⟩
    · intro heq
      have h1 := (nextColorIter_spec q C db count m0 hC1 hz k (by omega)).2.2.1
      have h2 := (nextColorIter_spec q C db count m0 hC1 hz l hl).2.2.1
      have := colourNumber_eq_of_matEqOn q C _ _ heq
      omega
    · exact (nextColor_iter_last q C db count m0 hC1 hz _ (by omega)).1

theorem nextColor_visits_all_witness :
    2 ≤ 3 ∧ IsColoring 3 1 cycle3 ∧
    ((∀ k, k + 1 < 2 ^ (3 * (3 - 1) / 2 - 1) →
      0 < (nextColor 3 (2 : Nat) [(0, 1, 2)] 1
        (nextColorIter 3 (2 : Nat) [(0, 1, 2)] 1 k cycle3)).2) ∧
    (∀ k, k < 2 ^ (3 * (3 - 1) / 2 - 1) →
      SameDirections 3 cycle3 (nextColorIter 3 (2 : Nat) [(0, 1, 2)] 1 k cycle3) ∧
      (1 ≤ 2 → IsColoring 3 (2 : Nat) (nextColorIter 3 (2 : Nat) [(0, 1, 2)] 1 k cycle3))) ∧
    (∀ k l, k < l → l < 2 ^ (3 * (3 - 1) / 2 - 1) →
      ¬ MatEqOn 3 (nextColorIter 3 (2 : Nat) [(0, 1, 2)] 1 k cycle3)
        (nextColorIter 3 (2 : Nat) [(0, 1, 2)] 1 l cycle3)) ∧
    (nextColor 3 (2 : Nat) [(0, 1, 2)] 1
      (nextColorIter 3 (2 : Nat) [(0, 1, 2)] 1 (2 ^ (3 * (3 - 1) / 2 - 1) - 1) cycle3)).2 = 0) :=
  ⟨by decide, by decide, nextColor_visits_all 3 2 [(0, 1, 2)] 1 cycle3 (by decide) (by decide)⟩

/-- Claim C5: `nextColor` is the successor function of a mixed-radix counter.  The edges
`(i, j)`, `i < j < q`, other than `(0, 1)`, listed in row-major order, are the digits
`e_0, e_1, …`; a valid colouring is read as `N = Σ_t (colour(e_t) - 1) * C ^ t`, and one call
of `nextColor` leaves the colouring of the same tournament whose number is
`(N + 1) mod C ^ n`. -/
theorem nextColor_is_successor (q C : Nat) (db : List (Nat × Nat × Nat)) (count : Nat)
    (m : Mat) (hm : IsColoring q C m) :
    (∀ i j, (i, j) ∈ freeEdges q ↔ i < j ∧ j < q ∧ (i, j) ≠ (0, 1)) ∧
    (freeEdges q).Pairwise lexLt2 ∧
    (2 ≤ q → (freeEdges q).length = q * (q - 1) / 2 - 1) ∧
    IsColoring q C (nextColor q C db count m).1 ∧
    SameDirections q m (nextColor q C db count m).1 ∧
    colourNumber C (nextColor q C db count m).1 (freeEdges q) =
      (colourNumber C m (freeEdges q) + 1) % C ^ (freeEdges q).length := by
  have h := nextColor_spec q C db count m hm
  exact ⟨mem_freeEdges q, freeEdges_sorted q, length_freeEdges q, h.1, h.2.1,
    nextColor_number q C db count m hm⟩

theorem nextColor_is_successor_witness :
    IsColoring 3 (2 : Nat) cycle3 ∧
    ((∀ i j, (i, j) ∈ freeEdges 3 ↔ i < j ∧ j < 3 ∧ (i, j) ≠ (0, 1)) ∧
    (freeEdges 3).Pairwise lexLt2 ∧
    (2 ≤ 3 → (freeEdges 3).length = 3 * (3 - 1) / 2 - 1) ∧
    IsColoring 3 (2 : Nat) (nextColor 3 (2 : Nat) [(0, 1, 2)] 1 cycle3).1 ∧
    SameDirections 3 cycle3 (nextColor 3 (2 : Nat) [(0, 1, 2)] 1 cycle3).1 ∧
    colourNumber 2 (nextColor 3 (2 : Nat) [(0, 1, 2)] 1 cycle3).1 (freeEdges 3) =
      (colourNumber 2 cycle3 (freeEdges 3) + 1) % 2 ^ (freeEdges 3).length) :=
  ⟨by decide, nextColor_is_successor 3 2 [(0, 1, 2)] 1 cycle3 (by decide)⟩

/-- Claim C6: on a valid colouring of a tournament on `q ≥ 2` vertices, `nextColor` returns 0
if and only if every edge other than `(0, 1)` has colour `C`; it then leaves every such edge
at colour 1 (the initial colouring, when edge `(0, 1)` has colour 1), and otherwise it
returns the score of the new colouring, which is strictly positive. -/
theorem nextColor_zero_iff (q C : Nat) (db : List (Nat × Nat × Nat)) (count : Nat)
    (m : Mat) (hq : 2 ≤ q) (hm : IsColoring q C m) :
    ((nextColor q C db count m).2 = 0 ↔
      ∀ i j, i < j → j < q → (i, j) ≠ (0, 1) → |m i j| = C) ∧
    ((nextColor q C db count m).2 = 0 →
      (∀ i j, i < j → j < q → (i, j) ≠ (0, 1) → |(nextColor q C db count m).1 i j| = 1) ∧
      (|m 0 1| = 1 → MatEqOn q (nextColor q C db count m).1 (initialColoring m))) ∧
    ((nextColor q C db count m).2 ≠ 0 →
      0 < (nextColor q C db count m).2 ∧
      (nextColor q C db count m).2 =
        countDepth2Reachability q (nextColor q C db count m).1 db count) := by
  obtain ⟨k1, k2, k3, k4, k5⟩ := nextColor_spec q C db count m hm
  have kf := nextColor_fixed q C db count m hm
  have hiff : (∀ e ∈ freeEdges q, (m e.1 e.2).natAbs = C) ↔
      ∀ i j, i < j → j < q → (i, j) ≠ (0, 1) → |m i j| = C := by
    constructor
    · intro h i j hij hj hne
      have := h (i, j) ((mem_freeEdges q i j).2 ⟨hij, hj, hne⟩)
      rw [Int.abs_eq_natAbs]
      exact_mod_cast this
    · intro h e he
      have := freeEdges_lt q e he
      have := h e.1 e.2 this.1 this.2.1 this.2.2
      rw [Int.abs_eq_natAbs] at this
      exact_mod_cast this
  have hpos : ¬ (∀ e ∈ freeEdges q, (m e.1 e.2).natAbs = C) →
      0 < (nextColor q C db count m).2 := fun hn => by
    rw [(k5 hn).1]
    exact score_pos q _ k1.1 hq db count
  have hzero : (nextColor q C db count m).2 = 0 →
      ∀ e ∈ freeEdges q, (m e.1 e.2).natAbs = C := fun h0 => by
    by_contra hn
    have := hpos hn
    omega
  refine ⟨⟨fun h0 => hiff.1 (hzero h0), fun h => (k4 (hiff.2 h)).1⟩, fun h0 => ?_, fun hne => ?_⟩
  · have hone := (k4 (hzero h0)).2
    have hone2 : ∀ i j, i < j → j < q → (i, j) ≠ (0, 1) →
        ((nextColor q C db count m).1 i j).natAbs = 1 := fun i j hij hj hne =>
      hone (i, j) ((mem_freeEdges q i j).2 ⟨hij, hj, hne⟩)
    refine ⟨fun i j hij hj hne => ?_, fun h01 => ?_⟩
    · rw [Int.abs_eq_natAbs, hone2 i j hij hj hne]
      rfl
    · refine matEqOn_of_colours q _ _ k1.1 (initialColoring_isTournament q m hm.1)
        (k2.symm.trans (initialColoring_sameDirections q m)) fun i j hij hj => ?_
      rw [initialColoring_natAbs q m hm.1 i j (by omega) hj (by omega)]
      by_cases hne : (i, j) = (0, 1)
      · simp only [Prod.mk.injEq] at hne
        obtain ⟨rfl, rfl⟩ := hne
        rw [kf.1]
        rw [Int.abs_eq_natAbs] at h01
        exact_mod_cast h01
      · exact hone2 i j hij hj hne
  · have hn : ¬ ∀ e ∈ freeEdges q, (m e.1 e.2).natAbs = C := fun h => hne (k4 h).1
    exact ⟨hpos hn, (k5 hn).1⟩

theorem nextColor_zero_iff_witness :
    2 ≤ 3 ∧ IsColoring 3 (2 : Nat) cycle3 ∧
    (((nextColor 3 (2 : Nat) [(0, 1, 2)] 1 cycle3).2 = 0 ↔
      ∀ i j, i < j → j < 3 → (i, j) ≠ (0, 1) → |cycle3 i j| = (2 : Nat)) ∧
    ((nextColor 3 (2 : Nat) [(0, 1, 2)] 1 cycle3).2 = 0 →
      (∀ i j, i < j → j < 3 → (i, j) ≠ (0, 1) →
        |(nextColor 3 (2 : Nat) [(0, 1, 2)] 1 cycle3).1 i j| = 1) ∧
      (|cycle3 0 1| = 1 →
        MatEqOn 3 (nextColor 3 (2 : Nat) [(0, 1, 2)] 1 cycle3).1 (initialColoring cycle3))) ∧
    ((nextColor 3 (2 : Nat) [(0, 1, 2)] 1 cycle3).2 ≠ 0 →
      0 < (nextColor 3 (2 : Nat) [(0, 1, 2)] 1 cycle3).2 ∧
      (nextColor 3 (2 : Nat) [(0, 1, 2)] 1 cycle3).2 =
        countDepth2Reachability 3 (nextColor 3 (2 : Nat) [(0, 1, 2)] 1 cycle3).1
          [(0, 1, 2)] 1)) :=
  ⟨by decide, by decide, nextColor_zero_iff 3 2 [(0, 1, 2)] 1 cycle3 (by decide) (by decide)⟩

/-- Claim C7: `nextColor` preserves the colouring invariant (zero diagonal, antisymmetry,
magnitudes in `1..C` off the diagonal), leaves the sign of every entry unchanged, and leaves
the entries `(0, 1)` and `(1, 0)` unchanged. -/
theorem nextColor_preserves_coloring (q C : Nat) (db : List (Nat × Nat × Nat)) (count : Nat)
    (m : Mat) (hm : IsColoring q C m) :
    IsColoring q C (nextColor q C db count m).1 ∧
    SameDirections q m (nextColor q C db count m).1 ∧
    (nextColor q C db count m).1 0 1 = m 0 1 ∧
    (nextColor q C db count m).1 1 0 = m 1 0 := by
  have h := nextColor_spec q C db count m hm
  have kf := nextColor_fixed q C db count m hm
  exact ⟨h.1, h.2.1, kf.1, kf.2⟩

theorem nextColor_preserves_coloring_witness :
    IsColoring 3 (2 : Nat) cycle3 ∧
    (IsColoring 3 (2 : Nat) (nextColor 3 (2 : Nat) [(0, 1, 2)] 1 cycle3).1 ∧
    SameDirections 3 cycle3 (nextColor 3 (2 : Nat) [(0, 1, 2)] 1 cycle3).1 ∧
    (nextColor 3 (2 : Nat) [(0, 1, 2)] 1 cycle3).1 0 1 = cycle3 0 1 ∧
    (nextColor 3 (2 : Nat) [(0, 1, 2)] 1 cycle3).1 1 0 = cycle3 1 0) :=
  ⟨by decide, nextColor_preserves_coloring 3 2 [(0, 1, 2)] 1 cycle3 (by decide)⟩

/-! ## The claims about `checkAllColorings` and `main` -/

/-- Claim C2, as stated, fails for the transitive tournament on 101 vertices: every colouring
has score 5050, so `s(Q) = 5050`, and with `resultFilter = 0` below it `checkAllColorings`
returns the start value 5000 of `minimum`, never 5050. -/
theorem checkAllColorings_sentinel_below_min :
    3 ≤ 101 ∧ IsColoring 101 1 transitiveT ∧ IsMinScore 101 2 transitiveT 5050 ∧
    (0 : Int) < 5050 ∧
    (∃ fuel mOut, checkAllColorings 101 2 0 (directedTrainaglesDBSet 101 transitiveT).1
      (directedTrainaglesDBSet 101 transitiveT).2 fuel transitiveT = some (mOut, 5000)) ∧
    ∀ fuel mOut, checkAllColorings 101 2 0 (directedTrainaglesDBSet 101 transitiveT).1
      (directedTrainaglesDBSet 101 transitiveT).2 fuel transitiveT ≠ some (mOut, 5050) := by
  have h0 : IsColoring 101 1 transitiveT := transitiveT_isColoring 101 1 (le_refl _)
  have hv : IsMinScore 101 2 transitiveT 5050 :=
    isMinScore_transitive 101 2 (by omega) 5050 (by norm_num)
  refine ⟨by omega, h0, hv, by omega, ?_, ?_⟩
  · obtain ⟨mOut, res, e, h⟩ := checkAllColorings_result 101 transitiveT 0 (by omega) h0 _
      (le_refl _)
    have h1 := (h 5050 hv).1 (by omega)
    have h2 : res = 5000 := by omega
    rw [h2] at e
    exact ⟨_, mOut, e⟩
  · intro fuel mOut e
    have := checkAllColoringsLoop_le _ _ _ _ _ _ _ _ _ _ e
    omega

/-- Claim C2, amended: with two colours, `q ≥ 3`, the matrix in the initial all-colour-1 state
and its triangle list computed, if `resultFilter` is strictly below `s(Q)` (the minimum of
the reference score over all colourings) then `checkAllColorings`, given enough fuel, returns
the smaller of 5000 and `s(Q)`; this is `s(Q)` itself whenever `q (q - 1) ≤ 5000`. -/
theorem checkAllColorings_returns_min (q : Nat) (m0 : Mat) (rf : Int) (hq : 3 ≤ q)
    (h0 : IsColoring q 1 m0) (v : Int) (hv : IsMinScore q 2 m0 v) (hrf : rf < v) :
    ∃ fuel0, ∀ fuel, fuel0 ≤ fuel →
      ∃ mOut res, checkAllColorings q 2 rf (directedTrainaglesDBSet q m0).1
          (directedTrainaglesDBSet q m0).2 fuel m0 = some (mOut, res) ∧
        res = min 5000 v ∧ (q * (q - 1) ≤ 5000 → res = v) := by
  refine ⟨2 ^ (freeEdges q).length, fun fuel hfuel => ?_⟩
  obtain ⟨mOut, res, e, h⟩ := checkAllColorings_result q m0 rf hq h0 fuel hfuel
  have h1 := (h v hv).1 hrf
  refine ⟨mOut, res, e, h1, fun hsmall => ?_⟩
  obtain ⟨⟨c, _, _, hcv⟩, _⟩ := hv
  have h2 := refScore_le q c
  have h3 : ((refScore q c : Nat) : Int) ≤ 5000 := by exact_mod_cast le_trans h2 hsmall
  omega

theorem checkAllColorings_returns_min_witness :
    3 ≤ 3 ∧ IsColoring 3 1 cycle3 ∧ IsMinScore 3 2 cycle3 4 ∧ (0 : Int) < 4 ∧
    ∃ fuel0, ∀ fuel, fuel0 ≤ fuel →
      ∃ mOut res, checkAllColorings 3 2 0 (directedTrainaglesDBSet 3 cycle3).1
          (directedTrainaglesDBSet 3 cycle3).2 fuel cycle3 = some (mOut, res) ∧
        res = min 5000 4 ∧ (3 * (3 - 1) ≤ 5000 → res = 4) :=
  ⟨by decide, by decide, isMinScore_cycle3, by decide,
    checkAllColorings_returns_min 3 cycle3 0 (by decide) (by decide) 4 isMinScore_cycle3
      (by decide)⟩

/-- Claim C3: with two colours and `resultFilter = 2 q (q - 1) / 3`, for `q ≥ 3` with an entry
in `numTournaments`, the loop of `main` run with enough fuel ends, and it calls
`printTournament` for a tournament that passes the triangle filter if and only if
`s(Q) > 2 q (q - 1) / 3`. -/
theorem main_prints_iff (q filter : Nat) (tournamentDB : Nat → Mat) (n : Nat) (hq : 3 ≤ q)
    (hn : numTournaments[q]? = some n) (hdb : ∀ r < n, IsColoring q 1 (tournamentDB r)) :
    ∃ fuel0, ∀ fuel, fuel0 ≤ fuel →
      ∃ reports, main q 2 filter fuel tournamentDB = some reports ∧ reports.length = n ∧
        ∀ r, r < n → filter ≤ (directedTrainaglesDBSet q (tournamentDB r)).2 →
          ∃ rep, reports[r]? = some (some rep) ∧
            ∀ v, IsMinScore q 2 (tournamentDB r) v →
              (rep.printed = true ↔ v > 2 * (q : Int) * ((q : Int) - 1) / 3) := by
  have hq9 := numTournaments_bound q n hn
  have hth := threshold_lt_sentinel q hq9
  refine ⟨2 ^ (freeEdges q).length, fun fuel hfuel => ?_⟩
  have hbody : ∀ r, r < n → ∃ x,
      mainBody q 2 filter fuel (tournamentDB r) = some x ∧
      (filter ≤ (directedTrainaglesDBSet q (tournamentDB r)).2 →
        ∃ rep, x = some rep ∧ ∀ v, IsMinScore q 2 (tournamentDB r) v →
          (rep.printed = true ↔ v > 2 * (q : Int) * ((q : Int) - 1) / 3)) := by
    intro r hr
    obtain ⟨mOut, res, e, h⟩ := checkAllColorings_result q (tournamentDB r)
      (2 * (q : Int) * ((q : Int) - 1) / 3) hq (hdb r hr) fuel hfuel
    simp only [Nat.cast_ofNat] at e
    by_cases hf : filter ≤ (directedTrainaglesDBSet q (tournamentDB r)).2
    · refine ⟨some ⟨res, decide (res > 2 * (q : Int) * ((q : Int) - 1) / 3)⟩, ?_, fun _ =>
        ⟨_, rfl, fun v hv => ?_⟩⟩
      · unfold mainBody
        simp only [ge_iff_le, hf, if_true, e]
      · simp only [decide_eq_true_eq]
        obtain ⟨h1, h2⟩ := h v hv
        by_cases hlt : 2 * (q : Int) * ((q : Int) - 1) / 3 < v
        · have := h1 hlt
          constructor
          · intro _; exact hlt
          · intro _; omega
        · have := h2 (by omega)
          constructor
          · intro h3; omega
          · intro h3; omega
    · refine ⟨none, ?_, fun h => absurd h hf⟩
      unfold mainBody
      simp only [ge_iff_le, hf, if_false]
  obtain ⟨reports, e, hlen, hrep⟩ := mainLoop_spec q 2 filter fuel tournamentDB n 0
    fun i hi => by
      obtain ⟨x, hx, _⟩ := hbody i hi
      exact ⟨x, by rw [Nat.zero_add]; exact hx⟩
  refine ⟨reports, ?_, hlen, fun r hr hf => ?_⟩
  · unfold main
    rw [hn]
    exact e
  · obtain ⟨x, hx, hx2⟩ := hbody r hr
    obtain ⟨rep, hrep2, hiff⟩ := hx2 hf
    refine ⟨rep, ?_, hiff⟩
    rw [hrep r hr, Nat.zero_add, hx, hrep2]

theorem main_prints_iff_witness :
    3 ≤ 3 ∧ numTournaments[3]? = some 2 ∧ (∀ r < 2, IsColoring 3 1 (tournaments3 r)) ∧
    ∃ fuel0, ∀ fuel, fuel0 ≤ fuel →
      ∃ reports, main 3 2 0 fuel tournaments3 = some reports ∧ reports.length = 2 ∧
        ∀ r, r < 2 → 0 ≤ (directedTrainaglesDBSet 3 (tournaments3 r)).2 →
          ∃ rep, reports[r]? = some (some rep) ∧
            ∀ v, IsMinScore 3 2 (tournaments3 r) v →
              (rep.printed = true ↔ v > 2 * ((3 : Nat) : Int) * (((3 : Nat) : Int) - 1) / 3) :=
  ⟨by decide, by decide, by decide,
    main_prints_iff 3 0 tournaments3 2 (by decide) (by decide) (by decide)⟩

/-! ## Reversing every edge -/

theorem reverseEdges_apply (m : Mat) (i j : Nat) : (reverseEdges m) i j = -m i j := rfl

theorem transpose_apply (m : Mat) (i j : Nat) : (transpose m) i j = m j i := rfl

theorem triangleTest_reverseEdges (m : Mat) (i j k : Nat) :
    triangleTest (reverseEdges m) i j k = triangleTest m i j k := by
  unfold triangleTest
  simp only [reverseEdges_apply, gt_iff_lt, Left.neg_pos_iff, Left.neg_neg_iff]
  rw [Bool.or_comm]

theorem directedTrainaglesDBSet_reverseEdges (q : Nat) (m : Mat) :
    directedTrainaglesDBSet q (reverseEdges m) = directedTrainaglesDBSet q m := by
  unfold directedTrainaglesDBSet triangleBody
  simp only [triangleTest_reverseEdges]

theorem transpose_matEqOn (q : Nat) (m : Mat) (h : IsTournament q m) :
    MatEqOn q (transpose m) (reverseEdges m) := by
  intro i hi j hj
  rw [transpose_apply, reverseEdges_apply]
  exact (h j hj i hi).2.1

theorem sameDirections_of_matEqOn (q : Nat) (a b : Mat) (h : MatEqOn q a b) :
    SameDirections q a b := by
  intro i hi j hj
  rw [h i hi j hj]
  exact ⟨Iff.rfl, Iff.rfl⟩

theorem directedTrainaglesDBSet_congr (q : Nat) (a b : Mat) (hd : SameDirections q a b) :
    directedTrainaglesDBSet q a = directedTrainaglesDBSet q b := by
  rw [directedTrainaglesDBSet_eq, directedTrainaglesDBSet_eq, triangleList_congr q a b hd]

/-! ## Tournaments without a directed triangle -/

theorem triangleList_of_no_triangle (q : Nat) (m : Mat) (h : IsTournament q m)
    (hno : ∀ i < q, ∀ j < q, ∀ k < q, ¬ IsDirectedTriangle m i j k) :
    triangleList q m = [] := by
  apply List.eq_nil_iff_forall_not_mem.2
  rintro ⟨i, j, k⟩ hmem
  rw [mem_triangleList] at hmem
  obtain ⟨h1, h2, h3, h4⟩ := hmem
  exact hno i (by omega) j (by omega) k h3
    ((triangleTest_iff q m h i j k (by omega) (by omega) h3).1 h4)

theorem refScore_eq_edges (q : Nat) (c : Mat) (hc : IsTournament q c)
    (h : triangleList q c = []) : refScore q c = q * (q - 1) / 2 := by
  have h1 := refScore_of_no_triangle q c hc h
  have h2 : ((q * (q - 1) : Nat) : Int) = (q : Int) * ((q : Int) - 1) := by
    cases q with
    | zero => simp
    | succ n => push_cast; simp
  have h3 : refScore q c * 2 = q * (q - 1) := by
    have : ((refScore q c * 2 : Nat) : Int) = ((q * (q - 1) : Nat) : Int) := by
      rw [h2, ← h1]
      push_cast
      rfl
    exact_mod_cast this
  omega

/-! ## The size of the triangle list -/

/-- Claim C11: for a tournament matrix, the matrix with every edge reversed (every entry
negated, which on the `q × q` block is the transposed matrix) is a tournament matrix with the
same list of triangles as the original. -/
theorem directedTrainaglesDBSet_reversed (q : Nat) (m : Mat) (h : IsTournament q m) :
    IsTournament q (reverseEdges m) ∧
    MatEqOn q (transpose m) (reverseEdges m) ∧
    directedTrainaglesDBSet q (reverseEdges m) = directedTrainaglesDBSet q m ∧
    directedTrainaglesDBSet q (transpose m) = directedTrainaglesDBSet q m := by
  refine ⟨fun i hi j hj => ?_, transpose_matEqOn q m h,
    directedTrainaglesDBSet_reverseEdges q m, ?_⟩
  · obtain ⟨h1, h2, h3⟩ := h i hi j hj
    simp only [reverseEdges_apply]
    exact ⟨by omega, by omega, fun hij => by have := h3 hij; omega⟩
  · rw [directedTrainaglesDBSet_congr q _ _
      (sameDirections_of_matEqOn q _ _ (transpose_matEqOn q m h))]
    exact directedTrainaglesDBSet_reverseEdges q m

theorem directedTrainaglesDBSet_reversed_witness :
    IsTournament 3 cycle3 ∧
    (IsTournament 3 (reverseEdges cycle3) ∧
    MatEqOn 3 (transpose cycle3) (reverseEdges cycle3) ∧
    directedTrainaglesDBSet 3 (reverseEdges cycle3) = directedTrainaglesDBSet 3 cycle3 ∧
    directedTrainaglesDBSet 3 (transpose cycle3) = directedTrainaglesDBSet 3 cycle3) :=
  ⟨by decide, directedTrainaglesDBSet_reversed 3 cycle3 (by decide)⟩

/-- Claim C12: for a transitive tournament (a tournament without a directed 3-cycle),
`directedTrainaglesDBSet` returns the empty list, and `countDepth2Reachability` returns
`q (q - 1) / 2` for every colouring of it. -/
theorem transitive_score (q : Nat) (m : Mat) (h : IsTournament q m)
    (hno : ∀ i < q, ∀ j < q, ∀ k < q, ¬ IsDirectedTriangle m i j k) :
    directedTrainaglesDBSet q m = ([], 0) ∧
    ∀ c, IsTournament q c → SameDirections q m c →
      countDepth2Reachability q c (directedTrainaglesDBSet q m).1
        (directedTrainaglesDBSet q m).2 = ((q * (q - 1) / 2 : Nat) : Int) := by
  have hnil := triangleList_of_no_triangle q m h hno
  refine ⟨by rw [directedTrainaglesDBSet_eq, hnil]; rfl, fun c hc hd => ?_⟩
  rw [score_eq_refScore q m c hc hd,
    refScore_eq_edges q c hc (by rw [← triangleList_congr q m c hd]; exact hnil)]

theorem transitive_score_witness :
    IsTournament 4 transitiveT ∧
    (∀ i < 4, ∀ j < 4, ∀ k < 4, ¬ IsDirectedTriangle transitiveT i j k) ∧
    (directedTrainaglesDBSet 4 transitiveT = ([], 0) ∧
    ∀ c, IsTournament 4 c → SameDirections 4 transitiveT c →
      countDepth2Reachability 4 c (directedTrainaglesDBSet 4 transitiveT).1
        (directedTrainaglesDBSet 4 transitiveT).2 = ((4 * (4 - 1) / 2 : Nat) : Int)) :=
  ⟨by decide, by decide, transitive_score 4 transitiveT (by decide) (by decide)⟩

theorem freeEdges_eq_nil (q : Nat) (hq : q ≤ 2) : freeEdges q = [] := by
  apply List.eq_nil_iff_forall_not_mem.2
  rintro ⟨i, j⟩ h
  obtain ⟨h1, h2, h3⟩ := (mem_freeEdges q i j).1 h
  apply h3
  simp only [Prod.mk.injEq]
  omega

theorem nextColorIter_frame (q C : Nat) (db : List (Nat × Nat × Nat)) (count : Nat)
    (m0 : Mat) (h0 : IsColoring q C m0) (hz : colourNumber C m0 (freeEdges q) = 0)
    (k : Nat) (hk : k ≤ C ^ (freeEdges q).length) (a b : Nat)
    (h1 : (a, b) ∉ freeEdges q) (h2 : (b, a) ∉ freeEdges q) :
    (nextColorIter q C db count k m0) a b = m0 a b := by
  induction k with
  | zero => rfl
  | succ k ih =>
    have hs := nextColorIter_spec q C db count m0 h0 hz k (by omega)
    rw [nextColorIter_succ, (nextColor_spec q C db count _ hs.1).2.2.1 a b h1 h2]
    exact ih (by omega)

/-- After the call that reports the end, the matrix is the initial one again. -/
theorem nextColorIter_wrap (q C : Nat) (db : List (Nat × Nat × Nat)) (count : Nat)
    (m0 : Mat) (h0 : IsColoring q 1 m0) (hC : 1 ≤ C) (a b : Nat) :
    (nextColorIter q C db count (C ^ (freeEdges q).length) m0) a b = m0 a b := by
  have hC0 := h0.of_one C hC
  have hz := h0.number_zero (q := q) C
  have hN : 0 < C ^ (freeEdges q).length := Nat.pow_pos hC
  obtain ⟨k, hk⟩ : ∃ k, k + 1 = C ^ (freeEdges q).length := ⟨_, Nat.sub_add_cancel hN⟩
  have hs := nextColorIter_spec q C db count m0 hC0 hz k (by omega)
  have hlast := (nextColor_iter_last q C db count m0 hC0 hz k hk).2
  have hns := nextColor_spec q C db count _ hs.1
  rw [← nextColorIter_succ] at hns
  have hT := hns.1.1
  have hd : SameDirections q m0 (nextColorIter q C db count (k + 1) m0) := hs.2.1.trans hns.2.1
  have key : ∀ i j, (i, j) ∈ freeEdges q →
      (nextColorIter q C db count (k + 1) m0) i j = m0 i j := by
    intro i j hmem
    obtain ⟨l1, l2, _⟩ := (mem_freeEdges q i j).1 hmem
    have e1 := hlast (i, j) hmem
    have e2 := IsColoring.natAbs_bounds (C := 1) (by exact_mod_cast h0) i j (by omega) l2
      (by omega)
    have e3 := hd i (by omega) j l2
    simp only at e1
    omega
  rw [← hk]
  by_cases m1 : (a, b) ∈ freeEdges q
  · exact key a b m1
  · by_cases m2 : (b, a) ∈ freeEdges q
    · obtain ⟨l1, l2, _⟩ := (mem_freeEdges q b a).1 m2
      rw [(hT a l2 b (by omega)).2.1, (h0.1 a l2 b (by omega)).2.1, key b a m2]
    · exact nextColorIter_frame q C db count m0 hC0 hz (k + 1) (by omega) a b m1 m2

theorem resetEdge_eq_self (q : Nat) (m : Mat) (h : IsColoring q 1 m) (i j : Nat)
    (hij : i < j) (hj : j < q) : resetEdge m i j = m := by
  have h1 := (h.1 i (by omega) j hj).2.1
  have h2 := IsColoring.natAbs_bounds (C := 1) (by exact_mod_cast h) i j (by omega) hj
    (by omega)
  rw [resetEdge_eq]
  apply Mat.ext_get
  intro a b
  rw [setPair_apply]
  by_cases hp : m i j > 0
  · rw [if_pos hp]
    split_ifs with e1 e2
    · obtain ⟨rfl, rfl⟩ := e1; omega
    · obtain ⟨rfl, rfl⟩ := e2; omega
    · rfl
  · rw [if_neg hp]
    split_ifs with e1 e2
    · obtain ⟨rfl, rfl⟩ := e1; omega
    · obtain ⟨rfl, rfl⟩ := e2; omega
    · rfl

theorem nextColorLoop_no_colours_mat (q : Nat) (C : Int) (hC : C ≤ 0)
    (db : List (Nat × Nat × Nat)) (count : Nat) (es : List (Nat × Nat))
    (hes : ∀ e ∈ es, e.1 < e.2 ∧ e.2 < q) (m : Mat) (hm : IsColoring q 1 m) :
    (nextColorLoop q C db count es m).1 = m := by
  induction es with
  | nil => rfl
  | cons e es ih =>
    obtain ⟨i, j⟩ := e
    have hij := hes (i, j) (List.mem_cons_self _ _)
    have hes2 : ∀ e ∈ es, e.1 < e.2 ∧ e.2 < q := fun e he => hes e (List.mem_cons_of_mem _ he)
    by_cases hs : i + j = 1
    · rw [nextColorLoop_skip _ _ _ _ _ _ _ _ hs]
      exact ih hes2
    · have hc : ¬ |m i j| < C := by
        have := abs_nonneg (m i j)
        omega
      rw [nextColorLoop_reset _ _ _ _ _ _ _ _ hs hc, resetEdge_eq_self q m hm i j hij.1 hij.2]
      exact ih hes2

/-- The run of `checkAllColorings` from the initial colouring, for every fuel above
`C ^ n`: either it stops at the first enumerated colouring whose score is at most
`resultFilter` and returns that score, or there is no such colouring, the matrix is left as
it was, and the value returned is the least of 5000 and the scores of the enumerated
colourings. -/
theorem checkAllColorings_trace (q C : Nat) (rf : Int) (db : List (Nat × Nat × Nat))
    (count : Nat) (m0 : Mat) (h0 : IsColoring q 1 m0) (fuel : Nat)
    (hfuel : C ^ (freeEdges q).length + 1 ≤ fuel) :
    ∃ mOut res, checkAllColorings q C rf db count fuel m0 = some (mOut, res) ∧
      ((∃ l, 0 < l ∧ l < C ^ (freeEdges q).length ∧ scoreAt q C db count m0 l ≤ rf ∧
          res = scoreAt q C db count m0 l ∧ mOut = nextColorIter q C db count l m0 ∧
          ∀ l2, 0 < l2 → l2 < l → rf < scoreAt q C db count m0 l2) ∨
       ((∀ l, 0 < l → l < C ^ (freeEdges q).length → rf < scoreAt q C db count m0 l) ∧
          (∀ a b, mOut a b = m0 a b) ∧ res ≤ 5000 ∧
          (∀ l, 0 < l → l < C ^ (freeEdges q).length → res ≤ scoreAt q C db count m0 l) ∧
          (res = 5000 ∨ ∃ l, 0 < l ∧ l < C ^ (freeEdges q).length ∧
            res = scoreAt q C db count m0 l))) := by
  obtain ⟨f, rfl⟩ : ∃ f, fuel = f + 1 := ⟨fuel - 1, by omega⟩
  rcases Nat.eq_zero_or_pos C with hC | hC
  · -- no colour: the first call reports the end
    subst hC
    have hle : 0 ^ (freeEdges q).length ≤ 1 := by
      rcases Nat.eq_zero_or_pos (freeEdges q).length with h | h
      · rw [h]; simp
      · rw [Nat.zero_pow h]; omega
    have hret : (nextColor q ((0 : Nat) : Int) db count m0).2 = 0 :=
      nextColorLoop_no_colours q _ (by simp) db count _ _
    have hmat : (nextColor q ((0 : Nat) : Int) db count m0).1 = m0 :=
      nextColorLoop_no_colours_mat q _ (by simp) db count _
        (fun e he => (mem_edgeOrder q e.1 e.2).1 he) m0 h0
    refine ⟨m0, 5000, ?_, Or.inr ⟨fun l h1 h2 => by omega, fun _ _ => rfl, le_refl _,
      fun l h1 h2 => by omega, Or.inl rfl⟩⟩
    unfold checkAllColorings
    rw [checkAllColoringsLoop_succ, hret, if_neg (by omega), hmat]
  · have hC0 := h0.of_one C hC
    have hz := h0.number_zero (q := q) C
    have hN : 0 < C ^ (freeEdges q).length := Nat.pow_pos hC
    by_cases hq : 2 ≤ q
    · obtain ⟨mOut, res, e, hres⟩ := checkAllColoringsLoop_spec q C rf db count m0 hq hC0 hz
        (f + 1) 0 5000 hN (by omega)
      refine ⟨mOut, res, e, ?_⟩
      rcases hres with hl | ⟨r1, r2, r3, r4, r5⟩
      · exact Or.inl hl
      · refine Or.inr ⟨r1, fun a b => ?_, r3, r4, r5⟩
        rw [r2]
        exact nextColorIter_wrap q C db count m0 h0 hC a b
    · -- at most one vertex: there is no edge, the first call reports the end
      have hnil := freeEdges_eq_nil q (by omega)
      have hone : C ^ (freeEdges q).length = 1 := by rw [hnil]; simp
      have hret := (nextColor_iter_last q C db count m0 hC0 hz 0 (by omega)).1
      have hret2 : (nextColor q C db count m0).2 = 0 := hret
      refine ⟨(nextColor q C db count m0).1, 5000, ?_, Or.inr ⟨fun l h1 h2 => by omega,
        fun a b => ?_, le_refl _, fun l h1 h2 => by omega, Or.inl rfl⟩⟩
      · unfold checkAllColorings
        rw [checkAllColoringsLoop_succ, hret2, if_neg (by omega)]
      · have := nextColorIter_wrap q C db count m0 h0 hC a b
        rw [hone] at this
        exact this

/-! ## The enumerated colourings and the colourings with edge `(0, 1)` at colour 1 -/

/-- Claim C17: when `checkAllColorings` is started on a matrix in the initial all-colour-1
state and no enumerated colouring has a score of at most `resultFilter` (so the search runs
until the enumerator is exhausted), the matrix it leaves behind is equal, entry for entry,
to the matrix it started with. -/
theorem checkAllColorings_restores_matrix (q C : Nat) (rf : Int)
    (db : List (Nat × Nat × Nat)) (count : Nat) (m0 : Mat) (h0 : IsColoring q 1 m0)
    (hno : ∀ l < C ^ (freeEdges q).length, 0 < l → rf < scoreAt q C db count m0 l) :
    ∃ fuel0, ∀ fuel, fuel0 ≤ fuel →
      ∃ mOut res, checkAllColorings q C rf db count fuel m0 = some (mOut, res) ∧
        (∀ i j, mOut i j = m0 i j) ∧ mOut = m0 := by
  refine ⟨C ^ (freeEdges q).length + 1, fun fuel hfuel => ?_⟩
  obtain ⟨mOut, res, e, hres⟩ := checkAllColorings_trace q C rf db count m0 h0 fuel hfuel
  refine ⟨mOut, res, e, ?_⟩
  rcases hres with ⟨l, l1, l2, l3, _⟩ | ⟨_, r2, _⟩
  · have := hno l l2 l1
    omega
  · exact ⟨r2, Mat.ext_get r2⟩

theorem checkAllColorings_restores_matrix_witness :
    IsColoring 3 1 cycle3 ∧
    (∀ l < 2 ^ (freeEdges 3).length, 0 < l →
      (0 : Int) < scoreAt 3 (2 : Nat) [(0, 1, 2)] 1 cycle3 l) ∧
    ∃ fuel0, ∀ fuel, fuel0 ≤ fuel →
      ∃ mOut res, checkAllColorings 3 (2 : Nat) 0 [(0, 1, 2)] 1 fuel cycle3 =
          some (mOut, res) ∧
        (∀ i j, mOut i j = cycle3 i j) ∧ mOut = cycle3 :=
  ⟨by decide, by decide,
    checkAllColorings_restores_matrix 3 2 0 [(0, 1, 2)] 1 cycle3 (by decide) (by decide)⟩

set_option maxRecDepth 100000 in
theorem isMinScore_strong4 : IsMinScore 4 2 strong4 7 := by
  refine ⟨⟨strong4Min, by decide, by decide, by decide⟩, fun c hc hd => ?_⟩
  obtain ⟨k, hk, e⟩ := exists_iter_refScore 4 strong4 c (by omega) (by decide) hc hd
    [(0, 1, 2), (0, 1, 3)] 2
  rw [e]
  have hk32 : k < 32 := hk
  interval_cases k <;> decide

theorem strong4_first_calls :
    (nextColor 4 2 [(0, 1, 2), (0, 1, 3)] 2 strong4).2 = 10 ∧
    (nextColor 4 2 [(0, 1, 2), (0, 1, 3)] 2
      (nextColor 4 2 [(0, 1, 2), (0, 1, 3)] 2 strong4).1).2 = 10 ∧
    (nextColor 4 2 [(0, 1, 2), (0, 1, 3)] 2
      (nextColor 4 2 [(0, 1, 2), (0, 1, 3)] 2
        (nextColor 4 2 [(0, 1, 2), (0, 1, 3)] 2 strong4).1).1).2 = 8 := by
  decide

/-- Claim C14 on the tournament `strong4` with `q = 4`, two colours and
`resultFilter = 2 * 4 * 3 / 3 = 8`: `s(Q)` is 7, but `checkAllColorings` stops at the third
colouring, whose score is 8, and returns 8, which is above `s(Q)`. -/
theorem checkAllColorings_above_min :
    IsColoring 4 1 strong4 ∧ IsMinScore 4 2 strong4 7 ∧
    (2 * ((4 : Nat) : Int) * (((4 : Nat) : Int) - 1) / 3 = 8) ∧
    ∀ fuel, ∃ mOut, checkAllColorings 4 2 8 (directedTrainaglesDBSet 4 strong4).1
      (directedTrainaglesDBSet 4 strong4).2 (fuel + 3) strong4 = some (mOut, 8) := by
  refine ⟨by decide, isMinScore_strong4, by decide, fun fuel => ?_⟩
  have hdb : directedTrainaglesDBSet 4 strong4 = ([(0, 1, 2), (0, 1, 3)], 2) := by decide
  obtain ⟨h1, h2, h3⟩ := strong4_first_calls
  rw [hdb]
  unfold checkAllColorings
  rw [checkAllColoringsLoop_succ, h1, if_pos (by decide), if_neg (by decide),
    checkAllColoringsLoop_succ, h2, if_pos (by decide), if_neg (by decide),
    checkAllColoringsLoop_succ, h3, if_pos (by decide), if_pos (by decide)]
  exact ⟨_, rfl⟩

/-- Claim C15, as stated, fails: on the 3-cycle with `q = 3` and two colours there are two
free edges, not one, and `checkAllColorings` with `resultFilter = 0` never returns 3. -/
theorem cycle3_not_three :
    (freeEdges 3).length ≠ 1 ∧
    ∀ fuel mOut, checkAllColorings 3 2 0 (directedTrainaglesDBSet 3 cycle3).1
      (directedTrainaglesDBSet 3 cycle3).2 fuel cycle3 ≠ some (mOut, 3) := by
  refine ⟨by decide, fun fuel mOut e => ?_⟩
  rcases Nat.lt_or_ge fuel 4 with hf | hf
  · have h2 : (checkAllColorings 3 2 0 (directedTrainaglesDBSet 3 cycle3).1
        (directedTrainaglesDBSet 3 cycle3).2 fuel cycle3).map (fun r => r.2) = some 3 := by
      rw [e]; rfl
    interval_cases fuel <;> revert h2 <;> decide
  · obtain ⟨mOut2, res, e2, h⟩ := checkAllColorings_result 3 cycle3 0 (by omega) (by decide)
      fuel hf
    have h1 := (h 4 isMinScore_cycle3).1 (by omega)
    simp only [Nat.cast_ofNat] at e2
    rw [e] at e2
    simp only [Option.some.injEq, Prod.mk.injEq] at e2
    omega

/-- Claim C15, amended: on the 3-cycle `0 → 1 → 2 → 0` with `q = 3` and two colours, exactly
the two edges `(0, 2)` and `(1, 2)` are free to enumerate after fixing edge `(0, 1)`; the
three enumerated colourings each have score 4 (the initial one has 6), `s(Q)` is 4, and with
`resultFilter` below 4 (early exit not firing) `checkAllColorings` returns 4: the 3 direct
edges and one depth-2 dominance. -/
theorem cycle3_min_four (rf : Int) (hrf : rf < 4) :
    freeEdges 3 = [(0, 2), (1, 2)] ∧
    directedTrainaglesDBSet 3 cycle3 = ([(0, 1, 2)], 1) ∧
    countDepth2Reachability 3 cycle3 [(0, 1, 2)] 1 = 6 ∧
    (∀ l < 2 ^ (freeEdges 3).length, 0 < l → scoreAt 3 2 [(0, 1, 2)] 1 cycle3 l = 4) ∧
    ((3 * (3 - 1) / 2 : Nat) = 3) ∧
    IsMinScore 3 2 cycle3 4 ∧
    ∃ fuel0, ∀ fuel, fuel0 ≤ fuel →
      ∃ mOut, checkAllColorings 3 2 rf (directedTrainaglesDBSet 3 cycle3).1
        (directedTrainaglesDBSet 3 cycle3).2 fuel cycle3 = some (mOut, 4) := by
  refine ⟨by decide, by decide, by decide, by decide, by decide, isMinScore_cycle3,
    4, fun fuel hf => ?_⟩
  obtain ⟨mOut, res, e, h⟩ := checkAllColorings_result 3 cycle3 rf (by omega) (by decide)
    fuel hf
  have h1 := (h 4 isMinScore_cycle3).1 hrf
  simp only [Nat.cast_ofNat] at e
  have h2 : res = 4 := by omega
  rw [h2] at e
  exact ⟨mOut, e⟩

theorem cycle3_min_four_witness :
    (0 : Int) < 4 ∧
    (freeEdges 3 = [(0, 2), (1, 2)] ∧
    directedTrainaglesDBSet 3 cycle3 = ([(0, 1, 2)], 1) ∧
    countDepth2Reachability 3 cycle3 [(0, 1, 2)] 1 = 6 ∧
    (∀ l < 2 ^ (freeEdges 3).length, 0 < l → scoreAt 3 2 [(0, 1, 2)] 1 cycle3 l = 4) ∧
    ((3 * (3 - 1) / 2 : Nat) = 3) ∧
    IsMinScore 3 2 cycle3 4 ∧
    ∃ fuel0, ∀ fuel, fuel0 ≤ fuel →
      ∃ mOut, checkAllColorings 3 2 0 (directedTrainaglesDBSet 3 cycle3).1
        (directedTrainaglesDBSet 3 cycle3).2 fuel cycle3 = some (mOut, 4)) :=
  ⟨by decide, cycle3_min_four 0 (by decide)⟩

/-! ## Loading a tournament -/

theorem readPair_eq (i j : Nat) (m : Mat) (s : List Char) :
    readPair i j (m, s) = (setPair m i j (markerValue s.head?), s.tail) := by
  unfold readPair fgetc setPair markerValue
  cases s with
  | nil => simp
  | cons c cs =>
    by_cases h : c = '0'
    · simp [h]
    · simp [h]

theorem readPairs_cons (e : Nat × Nat) (es : List (Nat × Nat)) (m : Mat) (s : List Char) :
    readPairs (e :: es) (m, s) =
      readPairs es (setPair m e.1 e.2 (markerValue s.head?), s.tail) := by
  unfold readPairs
  rw [List.foldl_cons, readPair_eq]

theorem readPairs_nil (x : Mat × List Char) : readPairs [] x = x := rfl

theorem readPairs_append (es fs : List (Nat × Nat)) (x : Mat × List Char) :
    readPairs (es ++ fs) x = readPairs fs (readPairs es x) := by
  unfold readPairs
  rw [List.foldl_append]

theorem readPairs_stream (es : List (Nat × Nat)) (m : Mat) (s : List Char) :
    (readPairs es (m, s)).2 = s.drop es.length := by
  induction es generalizing m s with
  | nil => rfl
  | cons e es ih =>
    rw [readPairs_cons, ih]
    cases s <;> simp

theorem readPairs_frame (es : List (Nat × Nat)) (m : Mat) (s : List Char) (a b : Nat)
    (h1 : (a, b) ∉ es) (h2 : (b, a) ∉ es) : (readPairs es (m, s)).1 a b = m a b := by
  induction es generalizing m s with
  | nil => rfl
  | cons e es ih =>
    rw [readPairs_cons, ih _ _ (fun h => h1 (List.mem_cons_of_mem _ h))
      (fun h => h2 (List.mem_cons_of_mem _ h))]
    exact setPair_other m e.1 e.2 _ a b (fun h => h1 (h ▸ List.mem_cons_self _ _))
      (fun h => h2 (h ▸ List.mem_cons_self _ _))

/-- The entries of the pairs read do not depend on the previous contents of the matrix. -/
theorem readPairs_agree (es : List (Nat × Nat)) (m m2 : Mat) (s : List Char) (a b : Nat)
    (h : m a b = m2 a b ∨ (a, b) ∈ es ∨ (b, a) ∈ es) :
    (readPairs es (m, s)).1 a b = (readPairs es (m2, s)).1 a b := by
  induction es generalizing m m2 s with
  | nil =>
    rcases h with h | h | h
    · exact h
    · simp at h
    · simp at h
  | cons e es ih =>
    rw [readPairs_cons, readPairs_cons]
    apply ih
    by_cases e1 : (a, b) = (e.1, e.2)
    · left
      simp only [Prod.mk.injEq] at e1
      simp only [setPair_apply, e1.1, e1.2, and_self, if_true]
    · by_cases e2 : (b, a) = (e.1, e.2)
      · left
        simp only [Prod.mk.injEq] at e2
        simp only [setPair_apply, e2.1, e2.2, and_self, if_true]
      · rcases h with h | h | h
        · left
          rw [setPair_other _ _ _ _ _ _ e1 e2, setPair_other _ _ _ _ _ _ e1 e2]
          exact h
        · rcases List.mem_cons.1 h with h | h
          · exact absurd h e1
          · exact Or.inr (Or.inl h)
        · rcases List.mem_cons.1 h with h | h
          · exact absurd h e2
          · exact Or.inr (Or.inr h)

theorem markerValue_cases (c : Option Char) : markerValue c = 1 ∨ markerValue c = -1 := by
  unfold markerValue
  split
  · right; rfl
  · left; rfl

/-- Every pair read holds `1` or `-1`, and the opposite value at the mirrored entry. -/
theorem readPairs_entries (es : List (Nat × Nat)) (hes : ∀ e ∈ es, e.1 < e.2) (hnd : es.Nodup)
    (m : Mat) (s : List Char) (a b : Nat) (hab : (a, b) ∈ es) :
    ((readPairs es (m, s)).1 a b = 1 ∨ (readPairs es (m, s)).1 a b = -1) ∧
    (readPairs es (m, s)).1 b a = -(readPairs es (m, s)).1 a b := by
  induction es generalizing m s with
  | nil => simp at hab
  | cons e es ih =>
    have hnot : e ∉ es := (List.nodup_cons.1 hnd).1
    have hes2 : ∀ e ∈ es, e.1 < e.2 := fun e he => hes e (List.mem_cons_of_mem _ he)
    rw [readPairs_cons]
    rcases List.mem_cons.1 hab with h | h
    · have he := hes e (List.mem_cons_self _ _)
      have h1 : (a, b) ∉ es := h ▸ hnot
      have h2 : (b, a) ∉ es := fun hm => by
        have := hes2 _ hm
        simp only [Prod.ext_iff] at h
        simp only at this
        omega
      simp only [Prod.ext_iff] at h
      obtain ⟨rfl, rfl⟩ := h
      rw [readPairs_frame es _ _ _ _ h1 h2, readPairs_frame es _ _ _ _ h2 h1,
        setPair_same _ _ _ _ (by omega), setPair_apply, if_pos ⟨rfl, rfl⟩]
      exact ⟨markerValue_cases _, rfl⟩
    · exact ih hes2 (List.nodup_cons.1 hnd).2 _ _ h

theorem zeroDiag_apply (I : List Nat) (m : Mat) (a b : Nat) :
    (zeroDiag I m) a b = if a = b ∧ a ∈ I then 0 else m a b := rfl

theorem setPair_zeroDiag (I : List Nat) (m : Mat) (i j : Nat) (v : Int) (hij : i ≠ j) :
    setPair (zeroDiag I m) i j v = zeroDiag I (setPair m i j v) := by
  apply Mat.ext_get
  intro a b
  simp only [setPair_apply, zeroDiag_apply]
  by_cases e1 : a = j ∧ b = i
  · rw [if_pos e1, if_neg (by omega), if_pos e1]
  · by_cases e2 : a = i ∧ b = j
    · rw [if_neg e1, if_pos e2, if_neg (by omega), if_neg e1, if_pos e2]
    · rw [if_neg e1, if_neg e2, if_neg e1, if_neg e2]

theorem readPairs_zeroDiag (I : List Nat) (es : List (Nat × Nat)) (hes : ∀ e ∈ es, e.1 ≠ e.2)
    (m : Mat) (s : List Char) :
    readPairs es (zeroDiag I m, s) =
      (zeroDiag I (readPairs es (m, s)).1, (readPairs es (m, s)).2) := by
  induction es generalizing m s with
  | nil => rfl
  | cons e es ih =>
    rw [readPairs_cons, readPairs_cons, setPair_zeroDiag I m e.1 e.2 _
      (hes e (List.mem_cons_self _ _)), ih fun e he => hes e (List.mem_cons_of_mem _ he)]

theorem set_diag_eq_zeroDiag (m : Mat) (i : Nat) : m.set i i 0 = zeroDiag [i] m := by
  apply Mat.ext_get
  intro a b
  simp only [Mat.set_apply, zeroDiag_apply, List.mem_singleton]
  by_cases h : a = i ∧ b = i
  · rw [if_pos h, if_pos ⟨by omega, h.1⟩]
  · rw [if_neg h, if_neg (by omega)]

theorem zeroDiag_zeroDiag (i : Nat) (I : List Nat) (m : Mat) :
    zeroDiag I (zeroDiag [i] m) = zeroDiag (i :: I) m := by
  apply Mat.ext_get
  intro a b
  simp only [zeroDiag_apply, List.mem_singleton]
  simp only [List.mem_cons]
  split_ifs <;> first | rfl | (exfalso; tauto)

theorem foldl_readPair_row (i : Nat) (l : List Nat) (x : Mat × List Char) :
    l.foldl (fun s j => readPair i j s) x = readPairs (l.flatMap fun j => [(i, j)]) x := by
  induction l generalizing x with
  | nil => rfl
  | cons j js ih =>
    rw [List.foldl_cons, ih, List.flatMap_cons, readPairs_append]
    rfl

theorem rowPairs_offDiag (q i : Nat) : ∀ e ∈ rowPairs q i, e.1 ≠ e.2 := by
  intro e he
  unfold rowPairs at he
  simp only [List.mem_flatMap, List.mem_range'_1, List.mem_singleton] at he
  obtain ⟨j, hj, rfl⟩ := he
  simp only
  omega

theorem flatMap_rowPairs_offDiag (q : Nat) (I : List Nat) :
    ∀ e ∈ I.flatMap (rowPairs q), e.1 ≠ e.2 := by
  intro e he
  obtain ⟨i, _, hi⟩ := List.mem_flatMap.1 he
  exact rowPairs_offDiag q i e hi

/-- The loop nest of `nextTournamentFromFile` over the rows `I`: the pairs are read in order,
and the diagonal entries of the rows are 0. -/
theorem foldl_rows_eq (q : Nat) (I : List Nat) (m : Mat) (s : List Char) :
    I.foldl (fun s i => forLoop (i + 1) q (fun j s => readPair i j s) (s.1.set i i 0, s.2))
        (m, s) =
      (zeroDiag I (readPairs (I.flatMap (rowPairs q)) (m, s)).1,
        (readPairs (I.flatMap (rowPairs q)) (m, s)).2) := by
  induction I generalizing m s with
  | nil =>
    simp only [List.foldl_nil, List.flatMap_nil, readPairs_nil]
    refine Prod.ext ?_ rfl
    apply Mat.ext_get
    intro a b
    simp [zeroDiag_apply]
  | cons i I ih =>
    rw [List.foldl_cons, forLoop_eq_foldl, foldl_readPair_row]
    have h1 : readPairs ((List.range' (i + 1) (q - (i + 1))).flatMap fun j => [(i, j)])
        (m.set i i 0, s) =
        (zeroDiag [i] (readPairs (rowPairs q i) (m, s)).1, (readPairs (rowPairs q i) (m, s)).2) := by
      rw [set_diag_eq_zeroDiag]
      exact readPairs_zeroDiag [i] _ (rowPairs_offDiag q i) m s
    simp only at h1 ⊢
    rw [h1, ih, readPairs_zeroDiag [i] _ (flatMap_rowPairs_offDiag q I), zeroDiag_zeroDiag,
      List.flatMap_cons, readPairs_append]

theorem nextTournamentFromFile_eq (q : Nat) (m : Mat) (s : List Char) :
    nextTournamentFromFile q m s =
      (zeroDiag (List.range' 0 q) (readPairs (edgeOrder q) (m, s)).1,
        (s.drop (edgeOrder q).length).tail) := by
  unfold nextTournamentFromFile
  rw [forLoop_eq_foldl, foldl_rows_eq, Nat.sub_zero]
  have h1 : (List.range' 0 q).flatMap (rowPairs q) = edgeOrder q := by
    rw [edgeOrder_eq, Nat.sub_zero]
    rfl
  rw [h1, readPairs_stream]
  unfold fgetc
  cases s.drop (edgeOrder q).length <;> rfl

theorem markerValue_head_readAsOnes (k : Nat) (s : List Char) :
    markerValue (readAsOnes k s).head? = markerValue s.head? := by
  unfold readAsOnes markerValue
  cases s with
  | nil =>
    cases k with
    | zero => rfl
    | succ k => simp [List.replicate_succ]
  | cons c cs =>
    by_cases h : c = '0'
    · simp [h]
    · simp [h]

theorem tail_readAsOnes_cons (k : Nat) (c : Char) (cs : List Char) :
    (readAsOnes k (c :: cs)).tail = readAsOnes k cs := by
  simp [readAsOnes]

theorem tail_readAsOnes_nil (k : Nat) : (readAsOnes k []).tail = readAsOnes (k - 1) [] := by
  cases k with
  | zero => rfl
  | succ k => simp [readAsOnes, List.replicate_succ]

/-- Reading from the stream itself stores the same entries as reading from the stream in which
every character other than `'0'` is replaced by `'1'` and that is continued by `'1'`s. -/
theorem readPairs_readAsOnes (es : List (Nat × Nat)) (m : Mat) (s : List Char) (k : Nat) :
    (readPairs es (m, readAsOnes k s)).1 = (readPairs es (m, s)).1 := by
  induction es generalizing m s k with
  | nil => rfl
  | cons e es ih =>
    rw [readPairs_cons, readPairs_cons, markerValue_head_readAsOnes]
    cases s with
    | nil =>
      rw [tail_readAsOnes_nil, ih]
      rfl
    | cons c cs => rw [tail_readAsOnes_cons, ih, List.tail_cons]

theorem loadPairs_eq_readPairs (es : List (Nat × Nat)) (m : Mat) (s : List Char)
    (r : Mat × List Char) (h : loadPairs es m s = some r) : readPairs es (m, s) = r := by
  induction es generalizing m s with
  | nil =>
    simp only [loadPairs, Option.some.injEq] at h
    rw [readPairs_nil, h]
  | cons e es ih =>
    obtain ⟨i, j⟩ := e
    cases s with
    | nil => simp [loadPairs] at h
    | cons c cs =>
      rw [readPairs_cons]
      simp only [loadPairs] at h
      simp only [List.head?_cons, List.tail_cons, markerValue]
      by_cases h1 : c = '1'
      · rw [if_pos h1] at h
        rw [if_neg (by rw [h1]; decide)]
        exact ih _ _ h
      · rw [if_neg h1] at h
        by_cases h0 : c = '0'
        · rw [if_pos h0] at h
          rw [if_pos (by rw [h0])]
          exact ih _ _ h
        · rw [if_neg h0] at h
          exact absurd h (by simp)

theorem loadPairs_readAsOnes (es : List (Nat × Nat)) (m : Mat) (s : List Char) (k : Nat)
    (hk : es.length ≤ k) : ∃ r, loadPairs es m (readAsOnes k s) = some r := by
  induction es generalizing m s k with
  | nil => exact ⟨_, rfl⟩
  | cons e es ih =>
    obtain ⟨i, j⟩ := e
    simp only [List.length_cons] at hk
    cases s with
    | nil =>
      obtain ⟨k, rfl⟩ : ∃ k2, k = k2 + 1 := ⟨k - 1, by omega⟩
      have h1 : readAsOnes (k + 1) [] = '1' :: readAsOnes k [] := by
        simp [readAsOnes, List.replicate_succ]
      rw [h1]
      simp only [loadPairs, if_true]
      exact ih _ _ _ (by omega)
    | cons c cs =>
      have h1 : readAsOnes k (c :: cs) = (if c = '0' then '0' else '1') :: readAsOnes k cs := by
        simp [readAsOnes]
      rw [h1]
      by_cases h0 : c = '0'
      · simp only [h0, if_true, loadPairs]
        rw [if_neg (by decide)]
        exact ih _ _ _ (by omega)
      · simp only [h0, if_false, loadPairs, if_true]
        exact ih _ _ _ (by omega)

/-- The loader of the specification fails exactly on the truncated streams and on those with
an unrecognised character at a marker position. -/
theorem loadPairs_eq_none_iff (es : List (Nat × Nat)) (m : Mat) (s : List Char) :
    loadPairs es m s = none ↔
      s.length < es.length ∨ ∃ c ∈ s.take es.length, c ≠ '0' ∧ c ≠ '1' := by
  induction es generalizing m s with
  | nil => simp [loadPairs]
  | cons e es ih =>
    obtain ⟨i, j⟩ := e
    cases s with
    | nil => simp [loadPairs]
    | cons c cs =>
      simp only [loadPairs, List.length_cons, List.take_succ_cons, List.mem_cons,
        Nat.add_lt_add_iff_right]
      by_cases h1 : c = '1'
      · rw [if_pos h1, ih]
        constructor
        · rintro (h | ⟨d, hd, h⟩)
          · exact Or.inl h
          · exact Or.inr ⟨d, Or.inr hd, h⟩
        · rintro (h | ⟨d, hd | hd, h⟩)
          · exact Or.inl h
          · exact absurd (hd ▸ h1) h.2
          · exact Or.inr ⟨d, hd, h⟩
      · rw [if_neg h1]
        by_cases h0 : c = '0'
        · rw [if_pos h0, ih]
          constructor
          · rintro (h | ⟨d, hd, h⟩)
            · exact Or.inl h
            · exact Or.inr ⟨d, Or.inr hd, h⟩
          · rintro (h | ⟨d, hd | hd, h⟩)
            · exact Or.inl h
            · exact absurd (hd ▸ h0) h.1
            · exact Or.inr ⟨d, hd, h⟩
        · rw [if_neg h0]
          simp only [true_iff]
          exact Or.inr ⟨c, Or.inl rfl, h0, h1⟩

theorem loadSpec_eq_none_iff (q : Nat) (s : List Char) :
    (loadSpec q s).isNone = true ↔ Malformed q s := by
  unfold loadSpec Malformed
  rw [← length_edgeOrder, ← loadPairs_eq_none_iff (edgeOrder q) zeroMat s]
  cases loadPairs (edgeOrder q) zeroMat s <;> simp

/-- The entries of the loaded matrix: zero diagonal, antisymmetric, off-diagonal `1` or `-1`. -/
theorem nextTournamentFromFile_entries (q : Nat) (m : Mat) (s : List Char) (i j : Nat)
    (hi : i < q) (hj : j < q) :
    (nextTournamentFromFile q m s).1 i i = 0 ∧
    (nextTournamentFromFile q m s).1 i j = -(nextTournamentFromFile q m s).1 j i ∧
    (i ≠ j → (nextTournamentFromFile q m s).1 i j = 1 ∨
      (nextTournamentFromFile q m s).1 i j = -1) := by
  rw [nextTournamentFromFile_eq]
  simp only [zeroDiag_apply, List.mem_range'_1]
  have hes : ∀ e ∈ edgeOrder q, e.1 < e.2 := fun e he => ((mem_edgeOrder q e.1 e.2).1 he).1
  refine ⟨by simp [hi], ?_, ?_⟩
  · by_cases hij : i = j
    · rw [if_pos ⟨hij, by omega⟩, if_pos ⟨hij.symm, by omega⟩]
      rfl
    · rw [if_neg (fun h => hij h.1), if_neg (fun h => hij h.1.symm)]
      rcases Nat.lt_or_gt_of_ne hij with h | h
      · have := (readPairs_entries _ hes (edgeOrder_nodup q) m s i j
          ((mem_edgeOrder q i j).2 ⟨h, hj⟩)).2
        omega
      · have := (readPairs_entries _ hes (edgeOrder_nodup q) m s j i
          ((mem_edgeOrder q j i).2 ⟨h, hi⟩)).2
        omega
  · intro hij
    rw [if_neg (fun h => hij h.1)]
    rcases Nat.lt_or_gt_of_ne hij with h | h
    · exact (readPairs_entries _ hes (edgeOrder_nodup q) m s i j
        ((mem_edgeOrder q i j).2 ⟨h, hj⟩)).1
    · have := readPairs_entries _ hes (edgeOrder_nodup q) m s j i
        ((mem_edgeOrder q j i).2 ⟨h, hi⟩)
      omega

theorem nextTournamentFromFile_isColoring (q : Nat) (m : Mat) (s : List Char) :
    IsColoring q 1 (nextTournamentFromFile q m s).1 := by
  refine ⟨fun i hi j hj => ?_, fun i hi j hj hij => ?_⟩
  · have h := nextTournamentFromFile_entries q m s i j hi hj
    refine ⟨h.1, h.2.1, fun hij => ?_⟩
    rcases h.2.2 hij with e | e <;> rw [e] <;> decide
  · have h := (nextTournamentFromFile_entries q m s i j hi hj).2.2 hij
    rcases h with e | e <;> rw [e] <;> decide

/-- The loaded matrix does not depend on the previous contents of the matrix. -/
theorem nextTournamentFromFile_matEqOn (q : Nat) (m : Mat) (s : List Char) :
    MatEqOn q (nextTournamentFromFile q m s).1 (readPairs (edgeOrder q) (zeroMat, s)).1 := by
  intro i hi j hj
  rw [nextTournamentFromFile_eq]
  simp only [zeroDiag_apply, List.mem_range'_1]
  by_cases hij : i = j
  · rw [if_pos ⟨hij, by omega⟩]
    subst hij
    have h1 : (i, i) ∉ edgeOrder q := fun h => by
      have := (mem_edgeOrder q i i).1 h
      omega
    rw [readPairs_frame _ _ _ _ _ h1 h1]
    rfl
  · rw [if_neg (fun h => hij h.1)]
    apply readPairs_agree
    right
    rcases Nat.lt_or_gt_of_ne hij with h | h
    · exact Or.inl ((mem_edgeOrder q i j).2 ⟨h, hj⟩)
    · exact Or.inr ((mem_edgeOrder q j i).2 ⟨h, hi⟩)

/-! ## Claim C16 -/

/-- Claim C16, counterexample: for `q = 3` the empty stream is exhausted before the three
markers are read, and the stream `x0` has an unrecognised character at the first marker
position; the loader of the specification rejects both, but `nextTournamentFromFile` produces
a tournament matrix from each: the transitive tournament from the empty stream, and the
3-cycle `0 → 1 → 2 → 0` from `x0`. -/
theorem nextTournamentFromFile_loads_malformed :
    Malformed 3 [] ∧ (loadSpec 3 []).isNone = true ∧
    MatEqOn 3 (nextTournamentFromFile 3 zeroMat []).1 transitiveT ∧
    Malformed 3 ['x', '0'] ∧ (loadSpec 3 ['x', '0']).isNone = true ∧
    MatEqOn 3 (nextTournamentFromFile 3 zeroMat ['x', '0']).1 cycle3 := by
  decide

/-- Claim C16, amended: `nextTournamentFromFile` has no failure: from every stream and
every previous content of the matrix it produces a tournament matrix with all entries of
magnitude 1 and consumes `q (q - 1) / 2 + 1` characters (as far as the stream has them). The
matrix is the one of the specification's loader when that loader accepts the stream, and in
general the one that loader produces from the stream in which every character other than `'0'`
is read as `'1'` and the end of the stream is read as `'1'`s. The specification's loader
itself fails exactly on the streams the claim describes. -/
theorem nextTournamentFromFile_always_loads (q : Nat) (m : Mat) (s : List Char) :
    IsColoring q 1 (nextTournamentFromFile q m s).1 ∧
    (nextTournamentFromFile q m s).2 = s.drop (q * (q - 1) / 2 + 1) ∧
    (∀ M, loadSpec q s = some M → MatEqOn q (nextTournamentFromFile q m s).1 M) ∧
    (∃ M, loadSpec q (readAsOnes (q * (q - 1) / 2) s) = some M ∧
      MatEqOn q (nextTournamentFromFile q m s).1 M) ∧
    ((loadSpec q s).isNone = true ↔ Malformed q s) := by
  refine ⟨nextTournamentFromFile_isColoring q m s, ?_, ?_, ?_, loadSpec_eq_none_iff q s⟩
  · rw [nextTournamentFromFile_eq, length_edgeOrder]
    simp only [List.tail_drop]
  · intro M hM
    unfold loadSpec at hM
    rcases hr : loadPairs (edgeOrder q) zeroMat s with _ | r
    · rw [hr] at hM
      simp at hM
    · rw [hr] at hM
      simp only [Option.map_some', Option.some.injEq] at hM
      have h1 := loadPairs_eq_readPairs _ _ _ _ hr
      have h2 := nextTournamentFromFile_matEqOn q m s
      rw [h1, hM] at h2
      exact h2
  · obtain ⟨r, hr⟩ := loadPairs_readAsOnes (edgeOrder q) zeroMat s (q * (q - 1) / 2)
      (le_of_eq (length_edgeOrder q))
    refine ⟨r.1, ?_, ?_⟩
    · unfold loadSpec
      rw [hr]
      rfl
    · have h1 := loadPairs_eq_readPairs _ _ _ _ hr
      have h2 := nextTournamentFromFile_matEqOn q m s
      rw [← readPairs_readAsOnes _ _ _ (q * (q - 1) / 2), h1] at h2
      exact h2

end PathMono
